import Mathlib

/-!
# Verification of the nanozap logging pipeline

Shallow embedding of the core data structures and algorithms of the
`zaibyte/nanozap` repository: the wait-free ring buffer (`randring`), the
logger facade and checked-entry terminal actions (`nanozap` / `zapcore`),
and the rotating file sink with its backup catalog (`zaproll`).

Machine `uint64` arithmetic is modelled with `Nat` reduced modulo `2^64`
at every update, matching Go's wrap-around semantics.
-/

/-- `2^64`, the modulus of Go's `uint64` arithmetic. -/
def u64Mod : Nat := 2 ^ 64

namespace Nanozap

/-! ## The ring buffer of `src/randring.go` (package `nanozap`)

Slots store `Option Nat`: `none` is Go's `nil` pointer, `some v` a pointer
to a log body tagged `v`. -/

/-- State of `Ring` from `src/randring.go`: mask, write cursor, the
consumer's cached copy of the write cursor, the read cursor, and the
bucket array (modelled as a fixed-length list of optional slots). -/
structure Ring where
  mask : Nat
  writeIndex : Nat
  writeIndexCache : Nat
  readIndex : Nat
  buckets : List (Option Nat)
  deriving Repr, DecidableEq

/-- `newRandRing` from `src/randring.go`: panics unless `1 ≤ n ≤ 16`,
otherwise allocates `2^n` empty buckets, sets `mask = 2^n - 1` and
initializes the write cursor to `^0 = 2^64 - 1` (its pre-first-push
value). The panic is modelled as `Except.error`. -/
def newRandRing (n : Nat) : Except String Ring :=
  if n > 16 || n == 0 then .error "illegal ring size"
  else .ok
    { mask := (1 <<< n) - 1
      writeIndex := u64Mod - 1
      writeIndexCache := 0
      readIndex := 0
      buckets := List.replicate (1 <<< n) none }

/-- `Ring.Push` from `src/randring.go`: claims the next write index
(wrapping `uint64` increment), stores the datum at `index & mask`, and —
if the replaced slot content was non-nil — frees the old log body to the
pool. The freed value is returned alongside the new state. -/
def Ring.Push (r : Ring) (data : Nat) : Ring × Option Nat :=
  let wi := (r.writeIndex + 1) % u64Mod
  let idx := wi &&& r.mask
  let old := r.buckets.getD idx none
  ({ r with writeIndex := wi, buckets := r.buckets.set idx (some data) }, old)

/-- `Ring.TryPop` from `src/randring.go`: when the read cursor has caught
up with the cached write cursor (`>=` comparison), refresh the cache from
the true write cursor and re-test; then atomically exchange the slot at
`readIndex & mask` with nil, advancing the read cursor only on a non-nil
exchange. -/
def Ring.TryPop (r : Ring) : Ring × Option Nat :=
  let probe : Ring → Ring × Option Nat := fun r =>
    let idx := r.readIndex &&& r.mask
    match r.buckets.getD idx none with
    | none => (r, none)
    | some d =>
        ({ r with buckets := r.buckets.set idx none
                  readIndex := (r.readIndex + 1) % u64Mod }, some d)
  if r.readIndex ≥ r.writeIndexCache then
    let cache := r.writeIndex
    if r.readIndex ≥ cache then ({ r with writeIndexCache := cache }, none)
    else probe { r with writeIndexCache := cache }
  else probe r

/-- Push a whole list of values in order, collecting the values freed to
the pool by overwrites (in the order they were freed). -/
def Ring.PushAll (r : Ring) (vs : List Nat) : Ring × List Nat :=
  vs.foldl (fun (acc : Ring × List Nat) v =>
    let (r', freed) := acc.1.Push v
    (r', acc.2 ++ freed.toList)) (r, [])

/-- Drain protocol: call `TryPop` repeatedly until it reports no data,
collecting the observed values in order. `fuel` bounds the recursion; the
theorems instantiate it large enough that the drain genuinely stops
because `TryPop` reported no data. -/
def Ring.Drain (r : Ring) : Nat → Ring × List Nat
  | 0 => (r, [])
  | fuel + 1 =>
    match r.TryPop with
    | (r', none) => (r', [])
    | (r', some d) =>
        let (r'', ds) := r'.Drain fuel
        (r'', d :: ds)

end Nanozap

namespace randring

/-! ## The ring buffer of `src/internal/randring/randring.go`

Same structure, but `TryPop` uses strict `>` comparisons and `Push`
plainly stores without freeing the replaced value. -/

/-- State of `ring` from `src/internal/randring/randring.go`. -/
structure ring where
  mask : Nat
  writeIndex : Nat
  writeIndexCache : Nat
  readIndex : Nat
  buckets : List (Option Nat)
  deriving Repr, DecidableEq

/-- `New` from `src/internal/randring/randring.go`: identical validity
check and initialization to `newRandRing`. -/
def New (n : Nat) : Except String ring :=
  if n > 16 || n == 0 then .error "illegal ring size"
  else .ok
    { mask := (1 <<< n) - 1
      writeIndex := u64Mod - 1
      writeIndexCache := 0
      readIndex := 0
      buckets := List.replicate (1 <<< n) none }

/-- `ring.Push` from `src/internal/randring/randring.go`: claims the next
write index and stores the datum, unconditionally overwriting the slot. -/
def ring.Push (r : ring) (data : Nat) : ring :=
  let wi := (r.writeIndex + 1) % u64Mod
  let idx := wi &&& r.mask
  { r with writeIndex := wi, buckets := r.buckets.set idx (some data) }

/-- `ring.TryPop` from `src/internal/randring/randring.go`: like
`Ring.TryPop` but with strict `>` comparisons against the cached write
cursor. -/
def ring.TryPop (r : ring) : ring × Option Nat :=
  let probe : ring → ring × Option Nat := fun r =>
    let idx := r.readIndex &&& r.mask
    match r.buckets.getD idx none with
    | none => (r, none)
    | some d =>
        ({ r with buckets := r.buckets.set idx none
                  readIndex := (r.readIndex + 1) % u64Mod }, some d)
  if r.readIndex > r.writeIndexCache then
    let cache := r.writeIndex
    if r.readIndex > cache then ({ r with writeIndexCache := cache }, none)
    else probe { r with writeIndexCache := cache }
  else probe r

/-- Push a list of values in order. -/
def ring.PushAll (r : ring) (vs : List Nat) : ring :=
  vs.foldl ring.Push r

/-- Drain until `TryPop` reports no data (fuel-bounded). -/
def ring.Drain (r : ring) : Nat → ring × List Nat
  | 0 => (r, [])
  | fuel + 1 =>
    match r.TryPop with
    | (r', none) => (r', [])
    | (r', some d) =>
        let (r'', ds) := r'.Drain fuel
        (r'', d :: ds)

end randring

namespace Nanozap

/-- A single producer/consumer operation on the ring: a `Push` of a tagged
value, or a `TryPop` probe by the consumer. -/
inductive RingOp
  | push (v : Nat)
  | tryPop
  deriving Repr, DecidableEq

/-- Run a sequence of operations from a state, counting the number of
`Push` calls and the number of *successful* `TryPop`s (the pops that
returned data). Returns `(state, pushes, pops)`. -/
def Ring.Run (r : Ring) : List RingOp → Ring × Nat × Nat
  | [] => (r, 0, 0)
  | .push v :: ops =>
      let t := (r.Push v).1.Run ops
      (t.1, t.2.1 + 1, t.2.2)
  | .tryPop :: ops =>
      match r.TryPop with
      | (r', none) => r'.Run ops
      | (r', some _) =>
          let t := r'.Run ops
          (t.1, t.2.1, t.2.2 + 1)

/-- Number of occupied (non-nil) slots. -/
def slotsOccupied (l : List (Option Nat)) : Nat :=
  l.countP Option.isSome

end Nanozap

namespace zapcore

/-! ## Checked entries and terminal actions (`src/zapcore/entry.go`) -/

/-- Log levels (the constants used by `src/nanozap.go`). -/
inductive Level
  | DebugLevel | InfoLevel | WarnLevel | ErrorLevel | PanicLevel | FatalLevel
  deriving Repr, DecidableEq

/-- `CheckWriteAction` from `src/zapcore/entry.go`: what to do after a log
entry is processed. -/
inductive CheckWriteAction
  | WriteThenNoop | WriteThenPanic | WriteThenFatal
  deriving Repr, DecidableEq

/-- `Entry` from `src/zapcore/entry.go` as populated by the facade in
`src/nanozap.go` (the facade passes the request id through as given; the
logger name / time source are external and modelled as plain data). -/
structure Entry where
  Level : Level
  Time : Int
  Message : String
  ReqID : String
  deriving Repr, DecidableEq

/-- `CheckedEntry` from `src/zapcore/entry.go`: an entry plus the cores
that agreed to log it, a best-effort reuse flag and the pending terminal
action. Cores are identified by numeric ids. -/
structure CheckedEntry where
  Entry : Entry
  dirty : Bool
  should : CheckWriteAction
  cores : List Nat
  deriving Repr, DecidableEq

/-- `getCheckedEntry` from `src/zapcore/entry.go`: a pooled entry after
`reset` — cleared entry, `dirty = false`, `should = WriteThenNoop`, no
cores. -/
def getCheckedEntry : CheckedEntry :=
  { Entry := ⟨.DebugLevel, 0, "", ""⟩
    dirty := false
    should := .WriteThenNoop
    cores := [] }

/-- `CheckedEntry.AddCore` from `src/zapcore/entry.go`: allocates a fresh
pooled entry when called on nil, then records one more accepting core. -/
def CheckedEntry.AddCore (ce : Option CheckedEntry) (ent : zapcore.Entry) (core : Nat) :
    Option CheckedEntry :=
  match ce with
  | none => some { getCheckedEntry with Entry := ent, cores := [core] }
  | some c => some { c with cores := c.cores ++ [core] }

/-- `CheckedEntry.Should` from `src/zapcore/entry.go`: allocates a fresh
pooled entry when called on nil, then sets the terminal action. -/
def CheckedEntry.Should (ce : Option CheckedEntry) (ent : zapcore.Entry)
    (should : CheckWriteAction) : Option CheckedEntry :=
  match ce with
  | none => some { getCheckedEntry with Entry := ent, should := should }
  | some c => some { c with should := should }

/-- `CheckedEntry.Write` from `src/zapcore/entry.go`: a nil or dirty
entry does nothing; otherwise the entry is written to each stored core in
order and then — after the writes, and after the entry is returned to its
pool — the stored terminal action is executed. The result is the list of
per-core writes together with the executed action. -/
def CheckedEntry.Write (ce : Option CheckedEntry) :
    List (Nat × zapcore.Entry) × CheckWriteAction :=
  match ce with
  | none => ([], .WriteThenNoop)
  | some c =>
      if c.dirty then ([], .WriteThenNoop)
      else (c.cores.map (fun cid => (cid, c.Entry)), c.should)

end zapcore

namespace Nanozap

open zapcore

/-- The Sink/Core capability consumed by the facade. Modelled from the
spec: the concrete `zapcore.Core` implementations (level gating and
encoding) are external collaborators (§6); a core is abstracted by its id,
its `Enabled` predicate and whether its `Check` adds itself to a checked
entry. -/
structure Core where
  id : Nat
  enabledB : Level → Bool
  acceptB : Entry → Bool

/-- `Core.Check` per the Sink capability of the spec (§6): return a
checked entry carrying this core exactly when the core accepts the entry,
and otherwise pass the input through (nil when nothing accepted). -/
def Core.Check (c : Core) (ent : Entry) (ce : Option CheckedEntry) :
    Option CheckedEntry :=
  if c.acceptB ent then CheckedEntry.AddCore ce ent c.id else ce

/-- `logBody` from `src/bodypool.go`: the pooled record pushed through
the ring. -/
structure logBody where
  lvl : Level
  msg : String
  reqid : String
  deriving Repr, DecidableEq

/-- `Logger.check` from `src/nanozap.go`: build the entry snapshot, ask
the core, and for the two highest severities additionally tag the checked
entry with its terminal action — creating the checked entry via `Should`
even when the core declined. -/
def Logger.check (core : Core) (lvl : Level) (msg reqid : String) (time : Int) :
    Option CheckedEntry :=
  let ent : Entry := { Level := lvl, Time := time, Message := msg, ReqID := reqid }
  let ce := core.Check ent none
  match lvl with
  | .PanicLevel => CheckedEntry.Should ce ent .WriteThenPanic
  | .FatalLevel => CheckedEntry.Should ce ent .WriteThenFatal
  | _ => ce

/-- Observable effects of the logging pipeline: a body pushed into the
ring by a producer, a write of an entry to a core, or a terminal action
(panic / `os.Exit(1)`). -/
inductive LogEffect
  | pushed (lb : logBody)
  | coreWrite (core : Nat) (ent : Entry)
  | terminal (a : CheckWriteAction)
  deriving Repr, DecidableEq

/-- `Logger.Panic` from `src/nanozap.go` as experienced by the caller:
acquire a body, set level/message/request id, push it into the ring, and
return. The complete effect of the call is the single push. -/
def Logger.Panic (reqid msg : String) : List LogEffect :=
  let lb : logBody := { lvl := .PanicLevel, msg := msg, reqid := reqid }
  [.pushed lb]

/-- `Logger.Fatal` from `src/nanozap.go` as experienced by the caller:
acquire a body, set level/message/request id, push it into the ring, and
return. -/
def Logger.Fatal (reqid msg : String) : List LogEffect :=
  let lb : logBody := { lvl := .FatalLevel, msg := msg, reqid := reqid }
  [.pushed lb]

/-- The body of `Logger.writeLoop` from `src/nanozap.go` applied to one
popped log body, running on the background drain task: `check` the body
against the core and, when the checked entry is non-nil, `Write` it —
which emits the per-core writes and then the terminal action. -/
def Logger.processBody (core : Core) (time : Int) (lb : logBody) : List LogEffect :=
  match Logger.check core lb.lvl lb.msg lb.reqid time with
  | none => []
  | some ce =>
      let t := CheckedEntry.Write (some ce)
      t.1.map (fun w => LogEffect.coreWrite w.1 w.2) ++
        (match t.2 with
         | .WriteThenNoop => []
         | a => [.terminal a])

end Nanozap


namespace gopath

/-! ## Go `path/filepath` on Unix paths

The `zaproll` package manipulates file paths with `filepath.Base`,
`filepath.Ext`, `filepath.Dir` and `filepath.Join` from the Go standard
library. These external collaborators are embedded here for
slash-separated (Unix) paths, with strings as `List Char`; `Clean` is
embedded by its segment semantics (skip empty and `.` segments, resolve
`..` against the segment stack, keep leading `..`s of relative paths). -/

/-- Strip trailing `/` characters (the first loop of `filepath.Base`). -/
def dropTrailingSep (l : List Char) : List Char :=
  (l.reverse.dropWhile (· = '/')).reverse

/-- Everything after the last `/` (the second step of `filepath.Base`). -/
def afterLastSep (l : List Char) : List Char :=
  (l.reverse.takeWhile (· ≠ '/')).reverse

/-- `filepath.Base`: empty path gives `"."`; otherwise strip trailing
slashes and keep the part after the last remaining slash; all-slash paths
give `"/"`. -/
def baseL (l : List Char) : List Char :=
  if l = [] then ['.']
  else
    let l1 := dropTrailingSep l
    let l2 := afterLastSep l1
    if l2 = [] then ['/'] else l2

/-- The scan of `filepath.Ext` on the reversed path: walk backwards until
a path separator; the extension starts at the first `.` found. `acc`
holds the characters already walked, in forward order. -/
def extRevAux : List Char → List Char → List Char
  | [], _ => []
  | c :: rest, acc =>
      if c = '/' then []
      else if c = '.' then '.' :: acc
      else extRevAux rest (c :: acc)

/-- `filepath.Ext`: the suffix beginning at the final dot of the final
path element; empty if there is no dot. -/
def extL (l : List Char) : List Char :=
  extRevAux l.reverse []

/-- Split a path into its `/`-separated fields (empty fields included,
as `strings.Split` would produce them). -/
def splitSegsAux : List Char → List Char → List (List Char)
  | [], acc => [acc.reverse]
  | c :: rest, acc =>
      if c = '/' then acc.reverse :: splitSegsAux rest []
      else splitSegsAux rest (c :: acc)

def splitSegs (l : List Char) : List (List Char) :=
  splitSegsAux l []

/-- The segment processing of `filepath.Clean`: the stack (head = most
recent segment) after consuming the given segments. Empty and `.`
segments are skipped; `..` pops a non-`..` top, is dropped at the root,
and accumulates at the front of a relative path. -/
def cleanStack (rooted : Bool) : List (List Char) → List (List Char) → List (List Char)
  | stack, [] => stack
  | stack, seg :: rest =>
      if seg = [] ∨ seg = ['.'] then cleanStack rooted stack rest
      else if seg = ['.', '.'] then
        match stack with
        | [] =>
            if rooted then cleanStack rooted [] rest
            else cleanStack rooted [['.', '.']] rest
        | top :: stack' =>
            if top = ['.', '.'] then cleanStack rooted (seg :: top :: stack') rest
            else cleanStack rooted stack' rest
      else cleanStack rooted (seg :: stack) rest

/-- Render a cleaned segment stack back into a path. -/
def renderClean (rooted : Bool) (stack : List (List Char)) : List Char :=
  let body := (List.intersperse ['/'] stack.reverse).flatten
  if rooted then '/' :: body
  else if body = [] then ['.'] else body

/-- `filepath.Clean` (segment semantics; `Clean "" = "."`). -/
def cleanL (l : List Char) : List Char :=
  match l with
  | [] => ['.']
  | c :: _ => renderClean (c = '/') (cleanStack (c = '/') [] (splitSegs l))

/-- `filepath.Dir`: everything up to and including the final slash,
cleaned; `"."` when there is no slash. -/
def dirL (l : List Char) : List Char :=
  cleanL ((l.reverse.dropWhile (· ≠ '/')).reverse)

/-- `filepath.Join` of two elements: skip leading empty elements, join
with `/` and clean. -/
def joinL (a b : List Char) : List Char :=
  if a = [] then (if b = [] then [] else cleanL b)
  else cleanL (a ++ '/' :: b)


/-- No path separator occurs in the list. -/
def noSlash (l : List Char) : Prop := ∀ c ∈ l, c ≠ '/'

end gopath

namespace gotime

/-! ## Go `time` formatting for the layout `2006-01-02T15:04:05.000Z0700`

`zaproll` stamps backups with `t.Format(backupTimeFmt)` and recovers them
with `time.Parse(backupTimeFmt, ·)` followed by `t.Unix()`. The embedding
represents a `time.Time` by its civil (broken-down) fields plus a zone
offset in minutes; `Unix()` is the standard civil-to-epoch conversion. -/

/-- A Go `time.Time` as broken-down civil fields in some zone. -/
structure GoTime where
  year : Nat
  month : Nat
  day : Nat
  hour : Nat
  minute : Nat
  sec : Nat
  millis : Nat
  offMin : Int
  deriving Repr, DecidableEq

/-- Gregorian leap year. -/
def isLeap (y : Nat) : Bool :=
  (y % 4 == 0 && y % 100 != 0) || y % 400 == 0

/-- Days in a month. -/
def daysInMonth (y m : Nat) : Nat :=
  if m = 2 then (if isLeap y then 29 else 28)
  else if m = 4 ∨ m = 6 ∨ m = 9 ∨ m = 11 then 30
  else 31

/-- A civil timestamp the fixed-width backup format round-trips: a valid
Gregorian date with a 4-digit year (1–9998, so that the UTC rendering
also stays 4-digit), in-range clock fields, and a zone offset smaller
than a day. -/
def Valid (t : GoTime) : Prop :=
  1 ≤ t.year ∧ t.year ≤ 9998 ∧
  1 ≤ t.month ∧ t.month ≤ 12 ∧
  1 ≤ t.day ∧ t.day ≤ daysInMonth t.year t.month ∧
  t.hour ≤ 23 ∧ t.minute ≤ 59 ∧ t.sec ≤ 59 ∧ t.millis ≤ 999 ∧
  -(1440 : Int) < t.offMin ∧ t.offMin < 1440

instance (t : GoTime) : Decidable (Valid t) := by
  unfold Valid
  infer_instance

/-- The ASCII digit character for `d % 10`. -/
def digitChar (d : Nat) : Char := Char.ofNat (48 + d % 10)

/-- Two-digit zero-padded decimal. -/
def pad2 (x : Nat) : List Char := [digitChar (x / 10), digitChar x]

/-- Three-digit zero-padded decimal. -/
def pad3 (x : Nat) : List Char := [digitChar (x / 100), digitChar (x / 10), digitChar x]

/-- Four-digit zero-padded decimal. -/
def pad4 (x : Nat) : List Char :=
  [digitChar (x / 1000), digitChar (x / 100), digitChar (x / 10), digitChar x]

/-- The `Z0700` layout element: `Z` for UTC, else `±hhmm`. -/
def formatZone (off : Int) : List Char :=
  if off = 0 then ['Z']
  else
    (if off < 0 then '-' else '+')
      :: (pad2 (off.natAbs / 60) ++ pad2 (off.natAbs % 60))

/-- `t.Format("2006-01-02T15:04:05.000Z0700")`. -/
def formatBackupTime (t : GoTime) : List Char :=
  pad4 t.year ++ '-' :: pad2 t.month ++ '-' :: pad2 t.day ++ 'T' :: pad2 t.hour
    ++ ':' :: pad2 t.minute ++ ':' :: pad2 t.sec ++ '.' :: pad3 t.millis
    ++ formatZone t.offMin

/-- Decimal digit value of a character. -/
def digitVal (c : Char) : Option Nat :=
  if 48 ≤ c.toNat ∧ c.toNat ≤ 57 then some (c.toNat - 48) else none

/-- Read exactly two digits. -/
def parse2 : List Char → Option (Nat × List Char)
  | c1 :: c2 :: rest =>
      match digitVal c1, digitVal c2 with
      | some d1, some d2 => some (d1 * 10 + d2, rest)
      | _, _ => none
  | _ => none

/-- Read exactly three digits. -/
def parse3 : List Char → Option (Nat × List Char)
  | c1 :: rest =>
      match digitVal c1, parse2 rest with
      | some d1, some (v, rest') => some (d1 * 100 + v, rest')
      | _, _ => none
  | _ => none

/-- Read exactly four digits. -/
def parse4 : List Char → Option (Nat × List Char)
  | c1 :: rest =>
      match digitVal c1, parse3 rest with
      | some d1, some (v, rest') => some (d1 * 1000 + v, rest')
      | _, _ => none
  | _ => none

/-- Require a literal character. -/
def expectChar (c : Char) : List Char → Option (List Char)
  | c' :: rest => if c' = c then some rest else none
  | [] => none

/-- Parse the zone suffix `Z` or `±hhmm`, requiring the end of input. -/
def parseZone : List Char → Option Int
  | ['Z'] => some 0
  | '+' :: rest =>
      match parse2 rest with
      | some (hh, rest') =>
          match parse2 rest' with
          | some (mm, []) => some ((hh * 60 + mm : Nat) : Int)
          | _ => none
      | _ => none
  | '-' :: rest =>
      match parse2 rest with
      | some (hh, rest') =>
          match parse2 rest' with
          | some (mm, []) => some (-((hh * 60 + mm : Nat) : Int))
          | _ => none
      | _ => none
  | _ => none

/-- `time.Parse("2006-01-02T15:04:05.000Z0700", s)`: positional parse of
the fixed layout, with Go's range validation of clock fields and of the
day against the month's length. -/
def parseBackupTime (l : List Char) : Option GoTime :=
  match parse4 l with
  | none => none
  | some (y, l) =>
  match expectChar '-' l with
  | none => none
  | some l =>
  match parse2 l with
  | none => none
  | some (mo, l) =>
  match expectChar '-' l with
  | none => none
  | some l =>
  match parse2 l with
  | none => none
  | some (d, l) =>
  match expectChar 'T' l with
  | none => none
  | some l =>
  match parse2 l with
  | none => none
  | some (h, l) =>
  match expectChar ':' l with
  | none => none
  | some l =>
  match parse2 l with
  | none => none
  | some (mi, l) =>
  match expectChar ':' l with
  | none => none
  | some l =>
  match parse2 l with
  | none => none
  | some (s, l) =>
  match expectChar '.' l with
  | none => none
  | some l =>
  match parse3 l with
  | none => none
  | some (ms, l) =>
  match parseZone l with
  | none => none
  | some off =>
      if 1 ≤ mo ∧ mo ≤ 12 ∧ 1 ≤ d ∧ d ≤ daysInMonth y mo ∧
          h ≤ 23 ∧ mi ≤ 59 ∧ s ≤ 59 then
        some ⟨y, mo, d, h, mi, s, ms, off⟩
      else none

/-- Days since the Unix epoch of a civil date: the standard
civil-to-days conversion (era/year-of-era/day-of-year over the March-based
year), computed over `Nat` with the year shifted by one 400-year era
(146097 days, subtracted again at the end) so that the `m ≤ 2` borrow
never goes negative for years `0 … 9999`. -/
def daysFromCivil (y m d : Nat) : Int :=
  let y' : Nat := y + 400 - (if m ≤ 2 then 1 else 0)
  let era : Nat := y' / 400
  let yoe : Nat := y' - era * 400
  let mp : Nat := (m + 9) % 12
  let doy : Nat := (153 * mp + 2) / 5 + (d - 1)
  let doe : Nat := yoe * 365 + yoe / 4 - yoe / 100 + doy
  ((era * 146097 + doe : Nat) : Int) - 719468 - 146097

/-- `t.Unix()`: seconds since the Unix epoch of the instant described by
the civil fields and zone offset. -/
def unixOf (t : GoTime) : Int :=
  daysFromCivil t.year t.month t.day * 86400
    + (t.hour : Int) * 3600 + (t.minute : Int) * 60 + (t.sec : Int)
    - t.offMin * 60

/-- The civil date of the previous day. -/
def prevDay (y m d : Nat) : Nat × Nat × Nat :=
  if 1 < d then (y, m, d - 1)
  else if 1 < m then (y, m - 1, daysInMonth y (m - 1))
  else (y - 1, 12, 31)

/-- The civil date of the next day. -/
def nextDay (y m d : Nat) : Nat × Nat × Nat :=
  if d < daysInMonth y m then (y, m, d + 1)
  else if m < 12 then (y, m + 1, 1)
  else (y + 1, 1, 1)

/-- `t.UTC()` at the level of civil fields: shift the clock by the zone
offset, borrowing or carrying at most one day (offsets are smaller than a
day), and set the offset to zero. Extensionally equal to Go's conversion
through absolute seconds for `|offset| < 24h`. -/
def toUTC (t : GoTime) : GoTime :=
  let total : Int := (t.hour : Int) * 60 + (t.minute : Int) - t.offMin
  if total < 0 then
    let p := prevDay t.year t.month t.day
    let tot := (total + 1440).toNat
    ⟨p.1, p.2.1, p.2.2, tot / 60, tot % 60, t.sec, t.millis, 0⟩
  else if total < 1440 then
    ⟨t.year, t.month, t.day, total.toNat / 60, total.toNat % 60, t.sec, t.millis, 0⟩
  else
    let p := nextDay t.year t.month t.day
    let tot := (total - 1440).toNat
    ⟨p.1, p.2.1, p.2.2, tot / 60, tot % 60, t.sec, t.millis, 0⟩

end gotime

namespace zaproll

/-! ## The backup catalog (`src/zaproll/backup.go`) -/

/-- `Backup` from `src/zaproll/backup.go`: a backup log file's creation
time (Unix seconds) and path. -/
structure Backup where
  ts : Int
  fp : String
  deriving Repr, DecidableEq

instance : Inhabited Backup := ⟨⟨0, ""⟩⟩

/-- `Backups.Swap` (guarded element swap on the slice; the `i, j ≥ 0`
guard of the source is vacuous over `Nat`). -/
def swapL (l : List Backup) (i j : Nat) : List Backup :=
  (l.set i (l.getD j default)).set j (l.getD i default)

/-- `up` from Go's `container/heap`, specialized to the `Backups`
min-heap ordered by `ts` (`Less i j ↔ bs[i].ts < bs[j].ts`): sift the
element at `j` towards the root. -/
def heapUp (l : List Backup) (j : Nat) : List Backup :=
  if h : j = 0 then l
  else if (l.getD j default).ts < (l.getD ((j - 1) / 2) default).ts then
    heapUp (swapL l ((j - 1) / 2) j) ((j - 1) / 2)
  else l
termination_by j
decreasing_by omega

/-- `down` from Go's `container/heap`, specialized to the `Backups`
min-heap: sift the element at `i` down within the prefix of length `n`.
(The boolean result of Go's `down` is unused by `Push`/`Pop` and is not
modelled.) `downChild` is the loop's choice of the smaller child. -/
def downChild (l : List Backup) (i n : Nat) : Nat :=
  if 2 * i + 2 < n ∧ (l.getD (2 * i + 2) default).ts < (l.getD (2 * i + 1) default).ts
  then 2 * i + 2 else 2 * i + 1

def heapDown (l : List Backup) (i n : Nat) : List Backup :=
  if h : 2 * i + 1 ≥ n then l
  else if (l.getD (downChild l i n) default).ts < (l.getD i default).ts then
    heapDown (swapL l i (downChild l i n)) (downChild l i n) n
  else l
termination_by n - i
decreasing_by
  unfold downChild
  split <;> omega

/-- `heap.Push`: `Backups.Push` appends, then `up` restores the heap. -/
def heapPush (l : List Backup) (x : Backup) : List Backup :=
  heapUp (l ++ [x]) l.length

/-- `heap.Pop`: swap the root with the last element, sift down over the
shortened prefix, then `Backups.Pop` removes and returns the last
element. On an empty slice `Backups.Pop` returns nothing. -/
def heapPop (l : List Backup) : Option Backup × List Backup :=
  match l with
  | [] => (none, [])
  | _ :: _ =>
      let n := l.length - 1
      let l2 := heapDown (swapL l 0 n) 0 n
      (some (l2.getD n default), l2.take n)

/-- The min-heap shape invariant of `container/heap` on the `Backups`
slice: every element is at least its parent (by `ts`). -/
def IsHeap (l : List Backup) : Prop :=
  ∀ j < l.length, 0 < j →
    (l.getD ((j - 1) / 2) default).ts ≤ (l.getD j default).ts

instance (l : List Backup) : Decidable (IsHeap l) := by
  unfold IsHeap
  infer_instance

/-- `getPrefixAndExt` from `src/zaproll/backup.go`: the base name of the
output path split as `(name-without-ext ++ "-", ext)`. -/
def getPrefixAndExt (outputPath : String) : String × String :=
  let name := gopath.baseL outputPath.data
  let ext := gopath.extL name
  let pre := name.take (name.length - ext.length) ++ ['-']
  (String.mk pre, String.mk ext)

/-- `parseTime` from `src/zaproll/backup.go`: strip the prefix and the
extension off the file's base name and parse the middle with the fixed
backup time format; `0` marks an illegal backup file name. -/
def parseTime (fp pre ext : String) : Int :=
  let filename := gopath.baseL fp.data
  if ¬ (pre.data.isPrefixOf filename) then 0
  else if ¬ (ext.data.isSuffixOf filename) then 0
  else
    let tsStr := (filename.drop pre.data.length).take
      (filename.length - ext.data.length - pre.data.length)
    match gotime.parseBackupTime tsStr with
    | none => 0
    | some t => gotime.unixOf t

/-- `makeBackupFP` from `src/zaproll/backup.go`: derive prefix/ext from
the output path's base name, convert the time to UTC unless `LocalTime`,
and return `Join(dir, prefix + "-" + timestamp + ext)` with the stamped
time's Unix seconds. -/
def makeBackupFP (name : String) (localTime : Bool) (t : gotime.GoTime) :
    String × Int :=
  let dir := gopath.dirL name.data
  let filename := gopath.baseL name.data
  let ext := gopath.extL filename
  let pre := filename.take (filename.length - ext.length)
  let t' := if localTime then t else gotime.toUTC t
  let timestamp := gotime.formatBackupTime t'
  (String.mk (gopath.joinL dir (pre ++ '-' :: (timestamp ++ ext))), gotime.unixOf t')

/-- One entry of `os.ReadDir`'s result. -/
structure DirEntry where
  name : String
  isDir : Bool
  deriving Repr, DecidableEq

/-- The scan loop of `Backups.list`: walk the directory entries, skip
directories, and `heap.Push` every file whose name parses as a backup of
`outputPath` (with path `Join(dir, name)`). -/
def scanStep (outputPath dir : String) (b : List Backup) (f : DirEntry) :
    List Backup :=
  if f.isDir then b
  else
    let pe := getPrefixAndExt outputPath
    let ts := parseTime f.name pe.1 pe.2
    if ts ≠ 0 then
      heapPush b ⟨ts, String.mk (gopath.joinL dir.data f.name.data)⟩
    else b

def scanEntries (outputPath dir : String) (ns : List DirEntry) : List Backup :=
  ns.foldl (scanStep outputPath dir) []

/-- The eviction loop of `Backups.list`: while the catalog holds more
than `max` entries, `heap.Pop` one and remove its file from disk.
Returns the remaining catalog and the evicted backups in eviction order;
`fuel` bounds the loop (the theorems supply the catalog's length, which
is sufficient since every pop shortens it). -/
def evictLoop : Nat → List Backup → Nat → List Backup × List Backup
  | 0, b, _ => (b, [])
  | fuel + 1, b, max =>
      if b.length > max then
        match heapPop b with
        | (v, b') =>
            let t := evictLoop fuel b' max
            (t.1, v.toList ++ t.2)
      else (b, [])

/-- Outcomes of the operating system calls made during the directory
scan. -/
structure ScanEnv where
  mkdirOk : Bool
  readDirOk : Bool
  entries : List DirEntry

/-- `Backups.list` from `src/zaproll/backup.go`: ensure the directory
(propagating failure), read it (propagating failure), push every
matching file into the min-heap, then evict (delete) the oldest entries
until at most `max` remain. Returns the catalog and the file paths
removed from disk. -/
def Backups.list (outputPath : String) (max : Nat) (env : ScanEnv) :
    Except String (List Backup × List String) :=
  if ¬ env.mkdirOk then .error "mkdir failed"
  else if ¬ env.readDirOk then .error "readdir failed"
  else
    let dir := String.mk (gopath.dirL outputPath.data)
    let b := scanEntries outputPath dir env.entries
    let t := evictLoop b.length b max
    .ok (t.1, t.2.map (·.fp))

/-! ## The rotating file sink (`src/unnamed/part_005`, package `zaproll`) -/

/-- Modelled from the spec: the `Config` struct of `zaproll` (its
declaration and `adjust` are not under `src/`; §6 lists the recognized
options). Sizes are in bytes; `int64` in Go, non-negative here. -/
structure Config where
  OutputPath : String
  MaxSize : Nat
  MaxBackups : Nat
  LocalTime : Bool
  PerWriteSize : Nat
  PerSyncSize : Nat
  deriving Repr, DecidableEq

/-- `Rotation` from `src/unnamed/part_005`: the backup catalog, the
current open file (by id), the byte counters, and the file the buffered
writer targets (`newBufIO(r.f, …)` / `buf.reset(r.f)`). -/
structure Rotation where
  backups : List Backup
  f : Nat
  bufFile : Nat
  written : Nat
  dirty : Nat
  synced : Nat
  deriving Repr, DecidableEq

/-- Observable operating-system effects of the sink. -/
inductive RotEvent
  | osRename (src dst : String) (ok : Bool)
  | osRemove (fp : String)
  | flushHint (file off len : Nat)
  | dropCache (file off len : Nat)
  | closeFile (file : Nat)
  deriving Repr, DecidableEq

/-- Outcomes of the operating-system calls made during one rotation
attempt: whether the rename / directory creation / file open succeed,
the id of the freshly opened file, and the current time. -/
structure RotEnv where
  renameOk : Bool
  mkdirOk : Bool
  openOk : Bool
  newFile : Nat
  now : gotime.GoTime
  deriving Repr

/-- The catalog bookkeeping inside `Rotation.open` after a successful
rename: `heap.Push` the new backup and, when the retention count is now
exceeded, `heap.Pop` the oldest and remove its file from disk. -/
def pushAndEvict (maxB : Nat) (bks : List Backup) (b : Backup) :
    List Backup × List RotEvent :=
  let b1 := heapPush bks b
  if b1.length > maxB then
    match heapPop b1 with
    | (v, b2) => (b2, v.toList.map (fun x => RotEvent.osRemove x.fp))
  else (b1, [])

/-- `Rotation.open` from `src/unnamed/part_005` in the rotation case
(`r.f != nil`): rename the live file to a fresh backup path (returning
the error on failure, before touching the catalog), record the backup in
the heap and evict the oldest if the retention count is now exceeded,
then create the directory and open a fresh log file, updating `r.f` only
on success. -/
def Rotation.openFile (cfg : Config) (r : Rotation) (env : RotEnv) :
    Rotation × List RotEvent × Option String :=
  let fp := cfg.OutputPath
  let m := makeBackupFP fp cfg.LocalTime env.now
  if ¬ env.renameOk then
    (r, [.osRename fp m.1 false], some "failed to rename log file")
  else
    let t2 := pushAndEvict cfg.MaxBackups r.backups ⟨m.2, m.1⟩
    let evs := RotEvent.osRename fp m.1 true :: t2.2
    let r2 := { r with backups := t2.1 }
    if ¬ env.mkdirOk then (r2, evs, some "failed to make dirs for log file")
    else if ¬ env.openOk then (r2, evs, some "failed to create log file")
    else ({ r2 with f := env.newFile }, evs, none)

/-- `Rotation.flushDirty` from `src/unnamed/part_005`: issue a flush
hint for the dirty byte range when it reaches the per-sync threshold or
when forced; independently, when `written` has reached the maximum size,
attempt a rotation — on success hint/drop/close the old file and retarget
the buffered writer, on failure keep the old file — and reset all three
counters in either case. -/
def Rotation.flushDirty (cfg : Config) (r : Rotation) (force : Bool) (env : RotEnv) :
    Rotation × List RotEvent :=
  let t1 :=
    if cfg.PerSyncSize ≤ r.dirty ∨ force then
      (({ r with synced := r.synced + r.dirty, dirty := 0 } : Rotation),
       [RotEvent.flushHint r.f r.synced r.dirty])
    else (r, [])
  let r1 := t1.1
  if cfg.MaxSize ≤ r1.written then
    let oldF := r1.f
    let t2 := Rotation.openFile cfg r1 env
    let t3 :=
      if t2.2.2 = none then
        (({ t2.1 with bufFile := t2.1.f } : Rotation),
         [RotEvent.flushHint oldF 0 cfg.MaxSize,
          RotEvent.dropCache oldF 0 cfg.MaxSize,
          RotEvent.closeFile oldF])
      else (t2.1, [])
    ({ t3.1 with dirty := 0, written := 0, synced := 0 }, t1.2 ++ t2.2.1 ++ t3.2)
  else (r1, t1.2)

/-- `Rotation.Write` from `src/unnamed/part_005`: hand the bytes to the
buffered writer — `fw` is the number of bytes it flushed through to the
file, an input here because the `bufIO` type is not under `src/`
(modelled from the spec: "when the buffer's internal flush threshold is
crossed, bytes land in the file and counters advance") — advance
`dirty`/`written` by `fw`, and run `flushDirty` unless nothing reached
the file. Returns `(len(p), nil)` in every path. -/
def Rotation.Write (cfg : Config) (r : Rotation) (plen fw : Nat) (env : RotEnv) :
    Rotation × List RotEvent × Nat × Option String :=
  let r1 := { r with dirty := r.dirty + fw, written := r.written + fw }
  if fw = 0 then (r1, [], plen, none)
  else
    let t := Rotation.flushDirty cfg r1 false env
    (t.1, t.2, plen, none)

/-- `Rotation.Sync` from `src/unnamed/part_005`: force the buffered
writer out (`fw` flushed bytes, error ignored as in the source), advance
the counters and run `flushDirty` with `force`. Returns `nil` always. -/
def Rotation.Sync (cfg : Config) (r : Rotation) (fw : Nat) (env : RotEnv) :
    Rotation × List RotEvent × Option String :=
  let r1 := { r with dirty := r.dirty + fw, written := r.written + fw }
  let t := Rotation.flushDirty cfg r1 true env
  (t.1, t.2, none)

/-- Outcomes of the operating-system calls made during construction. -/
structure PrepEnv where
  scan : ScanEnv
  openOk : Bool
  newFile : Nat

/-- `prepare` from `src/unnamed/part_005` (`New` forwards to it):
reject an empty output path, scan the directory into the backup catalog
(propagating its error), then open the first log file via `open` with
`r.f == nil` — which skips the rename/backup block, re-creates the
directory and opens the file, both failures propagated — and attach the
buffered writer to the new file. All byte counters start at zero. -/
def prepare (cfg : Config) (env : PrepEnv) : Except String Rotation :=
  if cfg.OutputPath = "" then .error "empty log file path"
  else
    match Backups.list cfg.OutputPath cfg.MaxBackups env.scan with
    | .error e => .error e
    | .ok t =>
        if ¬ env.scan.mkdirOk then .error "failed to make dirs for log file"
        else if ¬ env.openOk then .error "failed to create log file"
        else .ok
          { backups := t.1
            f := env.newFile
            bufFile := env.newFile
            written := 0
            dirty := 0
            synced := 0 }

/-- One serialized operation on the sink. -/
inductive RotOp
  | write (plen fw : Nat) (env : RotEnv)
  | sync (fw : Nat) (env : RotEnv)

/-- Run a sequence of `Write`/`Sync` calls. -/
def Rotation.RunOps (cfg : Config) : Rotation → List RotOp → Rotation
  | r, [] => r
  | r, .write plen fw env :: ops =>
      Rotation.RunOps cfg (Rotation.Write cfg r plen fw env).1 ops
  | r, .sync fw env :: ops =>
      Rotation.RunOps cfg (Rotation.Sync cfg r fw env).1 ops

/-- Did the sink attempt a rename (the first step of a rotation)? -/
def hasRename (evs : List RotEvent) : Bool :=
  evs.any (fun e => match e with | .osRename _ _ _ => true | _ => false)

end zaproll

/-! ## Helper lemmas -/

namespace Nanozap

theorem countP_set_le (p : Option Nat → Bool) :
    ∀ (l : List (Option Nat)) (i : Nat) (a : Option Nat),
      (l.set i a).countP p ≤ l.countP p + 1 := by
  intro l
  induction l with
  | nil => intro i a; simp [List.countP]
  | cons x xs ih =>
      intro i a
      cases i with
      | zero =>
          simp only [List.set, List.countP_cons]
          have := List.countP_cons p x xs
          by_cases ha : p a <;> by_cases hx : p x <;> simp [ha, hx, List.countP_cons] <;> omega
      | succ j =>
          simp only [List.set, List.countP_cons]
          have := ih j a
          omega

theorem countP_set_none (l : List (Option Nat)) (i : Nat) (d : Nat)
    (h : l.getD i none = some d) :
    (l.set i none).countP Option.isSome + 1 = l.countP Option.isSome := by
  induction l generalizing i with
  | nil => simp [List.getD] at h
  | cons x xs ih =>
      cases i with
      | zero =>
          simp only [List.getD_cons_zero] at h
          subst h
          simp [List.countP_cons]
      | succ j =>
          simp only [List.getD_cons_succ] at h
          have := ih j h
          simp only [List.set, List.countP_cons]
          omega

end Nanozap

namespace Nanozap

theorem slotsOccupied_replicate (k : Nat) :
    slotsOccupied (List.replicate k none) = 0 := by
  induction k with
  | zero => rfl
  | succ j ih => simpa [slotsOccupied, List.replicate, List.countP_cons] using ih

theorem succ_mod_u64 (a : Nat) : (a % u64Mod + 1) % u64Mod = (a + 1) % u64Mod := by
  conv_rhs => rw [Nat.add_mod]
  simp [u64Mod]

/-- Exhaustive description of one `Ring.TryPop` step: either nothing is
returned and only the write-cursor cache may change, or a non-nil slot is
exchanged with nil and the read cursor advances by one. -/
theorem Ring.TryPop_spec (r : Ring) :
    (∃ c, r.TryPop = ({ r with writeIndexCache := c }, none)) ∨
    (∃ c idx d, r.buckets.getD idx none = some d ∧
      r.TryPop = ({ r with writeIndexCache := c,
                           buckets := r.buckets.set idx none,
                           readIndex := (r.readIndex + 1) % u64Mod }, some d)) := by
  unfold Ring.TryPop
  by_cases h1 : r.readIndex ≥ r.writeIndexCache
  · rw [if_pos h1]
    by_cases h2 : r.readIndex ≥ r.writeIndex
    · rw [if_pos h2]
      exact .inl ⟨r.writeIndex, rfl⟩
    · rw [if_neg h2]
      simp only
      cases hslot : (r.buckets.getD (r.readIndex &&& r.mask) none) with
      | none => exact .inl ⟨r.writeIndex, by simp [hslot]⟩
      | some d =>
          exact .inr ⟨r.writeIndex, r.readIndex &&& r.mask, d, hslot, by simp [hslot]⟩
  · rw [if_neg h1]
    simp only
    cases hslot : (r.buckets.getD (r.readIndex &&& r.mask) none) with
    | none =>
        refine .inl ⟨r.writeIndexCache, ?_⟩
        simp [hslot]
    | some d =>
        refine .inr ⟨r.writeIndexCache, r.readIndex &&& r.mask, d, hslot, ?_⟩
        simp [hslot]

/-- Inventory invariant carried along any run of operations: the number of
successful pops plus the number of occupied slots never exceeds the number
of pushes, while the stored cursors are the operation counters reduced
modulo `2^64` (the write cursor starting from its pre-first-push value
`2^64 - 1`). -/
theorem Ring.Run_inv (ops : List RingOp) :
    ∀ (r : Ring) (pushes0 pops0 : Nat),
      pops0 + slotsOccupied r.buckets ≤ pushes0 →
      r.readIndex = pops0 % u64Mod →
      r.writeIndex = (u64Mod - 1 + pushes0) % u64Mod →
      (pops0 + (r.Run ops).2.2) + slotsOccupied (r.Run ops).1.buckets
          ≤ pushes0 + (r.Run ops).2.1 ∧
      (r.Run ops).1.readIndex = (pops0 + (r.Run ops).2.2) % u64Mod ∧
      (r.Run ops).1.writeIndex = (u64Mod - 1 + (pushes0 + (r.Run ops).2.1)) % u64Mod := by
  induction ops with
  | nil =>
      intro r pushes0 pops0 hocc hr hw
      exact ⟨by simpa [Ring.Run] using hocc, by simpa [Ring.Run] using hr,
        by simpa [Ring.Run] using hw⟩
  | cons op ops ih =>
      intro r pushes0 pops0 hocc hr hw
      cases op with
      | push v =>
          have hocc' : pops0 + slotsOccupied ((r.Push v).1).buckets ≤ pushes0 + 1 := by
            have h1 := countP_set_le Option.isSome r.buckets
              (((r.writeIndex + 1) % u64Mod) &&& r.mask) (some v)
            simp only [Ring.Push, slotsOccupied] at *
            omega
          have hr' : ((r.Push v).1).readIndex = pops0 % u64Mod := hr
          have hw' : ((r.Push v).1).writeIndex = (u64Mod - 1 + (pushes0 + 1)) % u64Mod := by
            simp only [Ring.Push, hw]
            rw [succ_mod_u64]
            simp [Nat.add_assoc]
          have hrec := ih (r.Push v).1 (pushes0 + 1) pops0 hocc' hr' hw'
          simp only [Ring.Run]
          refine ⟨by omega, hrec.2.1, ?_⟩
          have harith : u64Mod - 1 + (pushes0 + 1 + ((r.Push v).1.Run ops).2.1)
              = u64Mod - 1 + (pushes0 + (((r.Push v).1.Run ops).2.1 + 1)) := by omega
          simpa [harith] using hrec.2.2
      | tryPop =>
          rcases Ring.TryPop_spec r with ⟨c, heq⟩ | ⟨c, idx, d, hslot, heq⟩
          · have hrec := ih { r with writeIndexCache := c } pushes0 pops0 hocc hr hw
            simp only [Ring.Run, heq]
            exact hrec
          · have hcnt := countP_set_none r.buckets idx d hslot
            have hocc' : (pops0 + 1) + slotsOccupied
                ((⟨r.mask, r.writeIndex, c, (r.readIndex + 1) % u64Mod,
                  r.buckets.set idx none⟩ : Ring)).buckets ≤ pushes0 := by
              simp only [slotsOccupied] at hocc ⊢
              omega
            have hr' : ((⟨r.mask, r.writeIndex, c, (r.readIndex + 1) % u64Mod,
                  r.buckets.set idx none⟩ : Ring)).readIndex = (pops0 + 1) % u64Mod := by
              simp only [hr]
              exact succ_mod_u64 pops0
            have hw' : ((⟨r.mask, r.writeIndex, c, (r.readIndex + 1) % u64Mod,
                  r.buckets.set idx none⟩ : Ring)).writeIndex
                = (u64Mod - 1 + pushes0) % u64Mod := hw
            have hrec := ih _ pushes0 (pops0 + 1) hocc' hr' hw'
            simp only [Ring.Run, heq]
            refine ⟨by omega, ?_, hrec.2.2⟩
            have harith : pops0 + 1 + ((⟨r.mask, r.writeIndex, c,
                (r.readIndex + 1) % u64Mod, r.buckets.set idx none⟩ : Ring).Run ops).2.2
                = pops0 + (((⟨r.mask, r.writeIndex, c, (r.readIndex + 1) % u64Mod,
                  r.buckets.set idx none⟩ : Ring).Run ops).2.2 + 1) := by omega
            simpa [harith] using hrec.2.1

end Nanozap

namespace Nanozap

/-- Shape of a freshly constructed ring. -/
theorem newRandRing_ok (n : Nat) (r : Ring) (h : newRandRing n = .ok r) :
    r.readIndex = 0 ∧ r.writeIndex = u64Mod - 1 ∧ r.writeIndexCache = 0 ∧
    r.buckets = List.replicate (1 <<< n) none ∧ r.mask = (1 <<< n) - 1 := by
  unfold newRandRing at h
  split at h
  · cases h
  · cases h
    exact ⟨rfl, rfl, rfl, rfl, rfl⟩

end Nanozap

/-! ## Claim theorems -/

/-- **C9.** Ring capacity construction: for every `n` with `1 ≤ n ≤ 16`,
both ring constructors (`newRandRing` of `src/randring.go` and `New` of
`src/internal/randring/randring.go`) return a ring with exactly `2^n`
slots and mask `2^n - 1`; for `n = 0` or `n > 16` construction panics
(modelled as an error) and no ring is produced. -/
theorem C9_capacity_construction (n : Nat) :
    (1 ≤ n → n ≤ 16 →
      ∃ r, Nanozap.newRandRing n = .ok r ∧
        r.buckets.length = 2 ^ n ∧ r.mask = 2 ^ n - 1) ∧
    (1 ≤ n → n ≤ 16 →
      ∃ r, randring.New n = .ok r ∧
        r.buckets.length = 2 ^ n ∧ r.mask = 2 ^ n - 1) ∧
    (n = 0 ∨ 16 < n → Nanozap.newRandRing n = .error "illegal ring size") ∧
    (n = 0 ∨ 16 < n → randring.New n = .error "illegal ring size") := by
  refine ⟨?_, ?_, ?_, ?_⟩
  · intro h1 h2
    unfold Nanozap.newRandRing
    rw [if_neg (by simp; omega)]
    exact ⟨_, rfl, by simp [Nat.shiftLeft_eq], by simp [Nat.shiftLeft_eq]⟩
  · intro h1 h2
    unfold randring.New
    rw [if_neg (by simp; omega)]
    exact ⟨_, rfl, by simp [Nat.shiftLeft_eq], by simp [Nat.shiftLeft_eq]⟩
  · intro h
    unfold Nanozap.newRandRing
    rw [if_pos (by simp; omega)]
  · intro h
    unfold randring.New
    rw [if_pos (by simp; omega)]

/-- Witness for C9 at the concrete sizes `n = 12` (valid) and `n = 17`,
`n = 0` (rejected). -/
theorem C9_capacity_construction_witness :
    (∃ r, Nanozap.newRandRing 12 = .ok r ∧
      r.buckets.length = 2 ^ 12 ∧ r.mask = 2 ^ 12 - 1) ∧
    Nanozap.newRandRing 17 = .error "illegal ring size" ∧
    randring.New 0 = .error "illegal ring size" :=
  ⟨(C9_capacity_construction 12).1 (by decide) (by decide),
   (C9_capacity_construction 17).2.2.1 (by omega),
   (C9_capacity_construction 0).2.2.2 (by omega)⟩

/-- **C1.** Single-consumer drain completeness fails on the code of
`src/randring.go`: its `TryPop` compares the read cursor to the write
cursor with `>=` although the write cursor holds the index of the *last*
written slot (it is initialized to `2^64 - 1` and pre-incremented on
`Push`), so a drain always stops one item early. Concretely, after
pushing the single item `7` into a fresh ring of capacity 2, `TryPop`
reports no data and the drain observes `[]` instead of `[7]`; after
pushing `[0, 1, 2]` into a fresh ring of capacity 4 the drain observes
`[0, 1]`, not all three items. The sibling implementation
`src/internal/randring/randring.go` (strict `>` comparison, exercised by
its unit tests) drains the same pushes completely, as the claim states. -/
theorem C1_drain_misses_last_item :
    (Nanozap.newRandRing 1).toOption.map
      (fun r => (((r.PushAll [7]).1.TryPop).2, ((r.PushAll [7]).1.Drain 4).2))
      = some (none, []) ∧
    (Nanozap.newRandRing 2).toOption.map
      (fun r => ((r.PushAll [0, 1, 2]).1.Drain 8).2) = some [0, 1] ∧
    (randring.New 1).toOption.map
      (fun r => (((r.PushAll [7]).Drain 4).2, (((r.PushAll [7]).Drain 4).1.TryPop).2))
      = some ([7], none) ∧
    (randring.New 2).toOption.map
      (fun r => ((r.PushAll [0, 1, 2]).Drain 8).2) = some [0, 1, 2] := by decide

/-- **C5 (counterexample).** The claimed invariant "the consumer's read
cursor never exceeds the true write cursor" is false as stated: from a
fresh ring of capacity 2, the reachable sequence `TryPop` (which caches
the pre-first-push write cursor `2^64 - 1`), then `Push 5`, then `TryPop`
(which succeeds through the stale cache) ends in a state with read cursor
`1` and write cursor `0`. -/
theorem C5_counterexample :
    (Nanozap.newRandRing 1).toOption.map
      (fun r => ((r.Run [.tryPop, .push 5, .tryPop]).1.readIndex,
                 (r.Run [.tryPop, .push 5, .tryPop]).1.writeIndex,
                 decide ((r.Run [.tryPop, .push 5, .tryPop]).1.readIndex
                   ≤ (r.Run [.tryPop, .push 5, .tryPop]).1.writeIndex)))
      = some (1, 0, false) := by decide

/-- **C5 (amended).** In every state reachable from a freshly constructed
ring by any sequence of `Push` and `TryPop` operations, the number of
successful pops never exceeds the number of pushes; the read cursor is
the pop count and the write cursor is the push count added to its
pre-first-push value `2^64 - 1`, both modulo `2^64`. (Equivalently: the
read cursor never exceeds the write cursor *plus one*, counted without
wrap-around.) -/
theorem C5_read_cursor_bound (n : Nat) (r : Nanozap.Ring)
    (hr : Nanozap.newRandRing n = .ok r) (ops : List Nanozap.RingOp) :
    (r.Run ops).2.2 ≤ (r.Run ops).2.1 ∧
    (r.Run ops).1.readIndex = (r.Run ops).2.2 % u64Mod ∧
    (r.Run ops).1.writeIndex = (u64Mod - 1 + (r.Run ops).2.1) % u64Mod := by
  obtain ⟨h1, h2, -, h4, -⟩ := Nanozap.newRandRing_ok n r hr
  have hinv := Nanozap.Ring.Run_inv ops r 0 0
    (by simp [h4, Nanozap.slotsOccupied_replicate])
    (by simp [h1])
    (by rw [h2, Nat.add_zero, Nat.mod_eq_of_lt]; unfold u64Mod; omega)
  refine ⟨by omega, ?_, ?_⟩
  · simpa using hinv.2.1
  · simpa using hinv.2.2

/-- Witness for C5 (amended) on the concrete run of `C5_counterexample`:
one successful pop against one push. -/
theorem C5_read_cursor_bound_witness :
    ((⟨1, u64Mod - 1, 0, 0, [none, none]⟩ : Nanozap.Ring).Run
        [.tryPop, .push 5, .tryPop]).2.2
      ≤ ((⟨1, u64Mod - 1, 0, 0, [none, none]⟩ : Nanozap.Ring).Run
        [.tryPop, .push 5, .tryPop]).2.1 :=
  (C5_read_cursor_bound 1 _ (by rfl) [.tryPop, .push 5, .tryPop]).1

/-- **C3.** Terminal-action deferral: a call to `Logger.Panic` or
`Logger.Fatal` only pushes the tagged body into the ring and returns —
its effect list contains no terminal action, so the caller is neither
panicked nor exited. The terminal action is produced by the background
drain path (`writeLoop`'s body) once the body has been popped: there,
`check` tags the checked entry via `Should` even when the core declined
the entry, and `CheckedEntry.Write` emits the core writes first and the
terminal action (`panic`, respectively `os.Exit(1)`) last — for every
core, in particular one whose levels are all disabled. -/
theorem C3_terminal_action_deferred (core : Nanozap.Core) (time : Int)
    (reqid msg : String) :
    (∀ e ∈ Nanozap.Logger.Panic reqid msg, ∀ a, e ≠ .terminal a) ∧
    (∀ e ∈ Nanozap.Logger.Fatal reqid msg, ∀ a, e ≠ .terminal a) ∧
    Nanozap.Logger.Panic reqid msg = [.pushed ⟨.PanicLevel, msg, reqid⟩] ∧
    Nanozap.Logger.Fatal reqid msg = [.pushed ⟨.FatalLevel, msg, reqid⟩] ∧
    Nanozap.Logger.processBody core time ⟨.PanicLevel, msg, reqid⟩
      = (if core.acceptB ⟨.PanicLevel, time, msg, reqid⟩
         then [.coreWrite core.id ⟨.PanicLevel, time, msg, reqid⟩] else [])
        ++ [.terminal .WriteThenPanic] ∧
    Nanozap.Logger.processBody core time ⟨.FatalLevel, msg, reqid⟩
      = (if core.acceptB ⟨.FatalLevel, time, msg, reqid⟩
         then [.coreWrite core.id ⟨.FatalLevel, time, msg, reqid⟩] else [])
        ++ [.terminal .WriteThenFatal] := by
  refine ⟨?_, ?_, rfl, rfl, ?_, ?_⟩
  · intro e he a
    simp only [Nanozap.Logger.Panic, List.mem_singleton] at he
    subst he
    simp
  · intro e he a
    simp only [Nanozap.Logger.Fatal, List.mem_singleton] at he
    subst he
    simp
  · by_cases h : core.acceptB ⟨.PanicLevel, time, msg, reqid⟩ <;>
      simp [Nanozap.Logger.processBody, Nanozap.Logger.check, Nanozap.Core.Check, h,
        zapcore.CheckedEntry.AddCore, zapcore.CheckedEntry.Should,
        zapcore.CheckedEntry.Write, zapcore.getCheckedEntry]
  · by_cases h : core.acceptB ⟨.FatalLevel, time, msg, reqid⟩ <;>
      simp [Nanozap.Logger.processBody, Nanozap.Logger.check, Nanozap.Core.Check, h,
        zapcore.CheckedEntry.AddCore, zapcore.CheckedEntry.Should,
        zapcore.CheckedEntry.Write, zapcore.getCheckedEntry]

/-- Witness for C3 at a core that rejects everything (logging disabled):
the drain path still executes the panic action, after zero writes. -/
theorem C3_terminal_action_deferred_witness :
    Nanozap.Logger.processBody ⟨0, fun _ => false, fun _ => false⟩ 0
        ⟨.PanicLevel, "m", "r"⟩
      = [.terminal .WriteThenPanic] ∧
    Nanozap.Logger.Panic "r" "m" = [.pushed ⟨.PanicLevel, "m", "r"⟩] := by
  have h := C3_terminal_action_deferred ⟨0, fun _ => false, fun _ => false⟩ 0 "r" "m"
  exact ⟨by simpa using h.2.2.2.2.1, h.2.2.1⟩

namespace Nanozap

theorem and_mask_eq (k n : Nat) (h : k < 2 ^ n) : k &&& (2 ^ n - 1) = k := by
  rw [Nat.and_pow_two_sub_one_eq_mod]
  exact Nat.mod_eq_of_lt h

theorem getD_append_length (l1 l2 : List (Option Nat)) :
    (l1 ++ l2).getD l1.length none = l2.getD 0 none := by
  induction l1 with
  | nil => simp
  | cons x xs ih => simpa using ih

theorem set_append_length (l1 l2 : List (Option Nat)) (v : Option Nat) :
    (l1 ++ l2).set l1.length v = l1 ++ l2.set 0 v := by
  induction l1 with
  | nil => simp
  | cons x xs ih => simp [ih]

theorem getD_set_ne (l : List (Option Nat)) (i j : Nat) (v : Option Nat)
    (h : i ≠ j) : (l.set i v).getD j none = l.getD j none := by
  induction l generalizing i j with
  | nil => simp
  | cons x xs ih =>
      cases i with
      | zero =>
          cases j with
          | zero => exact absurd rfl h
          | succ j' => simp
      | succ i' =>
          cases j with
          | zero => simp
          | succ j' => simpa using ih i' j' (by omega)

theorem getD_map_some_range' (k : Nat) :
    ∀ (s i : Nat), i < k →
      ((List.range' s k).map some).getD i none = some (s + i) := by
  induction k with
  | zero => intro s i h; omega
  | succ k' ih =>
      intro s i h
      cases i with
      | zero => simp [List.range']
      | succ i' =>
          have := ih (s + 1) i' (by omega)
          simp only [List.range', List.map_cons, List.getD_cons_succ]
          rw [this]
          congr 1
          omega

/-- State of a fresh ring after pushing `0, 1, …, k-1` in order, for
`k ≤ capacity`: the first `k` slots hold the pushed values, the write
cursor has advanced `k` times from its initial `2^64 - 1`, and nothing
was freed to the pool. -/
theorem Ring.PushAll_range (n : Nat) (h2 : n ≤ 16) :
    ∀ (k : Nat), k ≤ 2 ^ n →
    ∀ r : Ring, newRandRing n = .ok r →
      r.PushAll (List.range k)
        = (⟨2 ^ n - 1, (u64Mod - 1 + k) % u64Mod, 0, 0,
            (List.range k).map some ++ List.replicate (2 ^ n - k) none⟩, []) := by
  have hcap : (2 : Nat) ^ n ≤ 2 ^ 16 := Nat.pow_le_pow_right (by norm_num) h2
  have hcap64 : (2 : Nat) ^ 16 < u64Mod := by unfold u64Mod; norm_num
  intro k
  induction k with
  | zero =>
      intro hk r hr
      obtain ⟨h1, h2', h3, h4, h5⟩ := newRandRing_ok n r hr
      cases r
      simp only at h1 h2' h3 h4 h5
      subst h1 h2' h3 h4 h5
      simp only [List.range_zero, Ring.PushAll, List.foldl_nil, List.map_nil,
        List.nil_append, Nat.sub_zero, Nat.add_zero]
      rw [Nat.mod_eq_of_lt (by unfold u64Mod; omega)]
      simp [Nat.shiftLeft_eq]
  | succ k' ih =>
      intro hk r hr
      have hk' : k' ≤ 2 ^ n := by omega
      have hstep := ih hk' r hr
      rw [List.range_succ]
      simp only [Ring.PushAll] at hstep ⊢
      rw [List.foldl_append, hstep]
      simp only [List.foldl_cons, List.foldl_nil]
      have hwi : ((u64Mod - 1 + k') % u64Mod + 1) % u64Mod
          = (u64Mod - 1 + (k' + 1)) % u64Mod := by
        rw [succ_mod_u64, Nat.add_assoc]
      have hwival : (u64Mod - 1 + (k' + 1)) % u64Mod = k' := by
        have hh : u64Mod - 1 + (k' + 1) = u64Mod + k' := by
          unfold u64Mod
          omega
        rw [hh, Nat.add_mod_left, Nat.mod_eq_of_lt (by omega)]
      have hidx : k' &&& (2 ^ n - 1) = k' := and_mask_eq k' n (by omega)
      have hlen : ((List.range k').map some).length = k' := by simp
      have hrepl : List.replicate (2 ^ n - k') (none : Option Nat)
          = none :: List.replicate (2 ^ n - (k' + 1)) none := by
        have hh : 2 ^ n - k' = (2 ^ n - (k' + 1)) + 1 := by omega
        rw [hh, List.replicate_succ]
      have hold : ((List.range k').map some ++
          List.replicate (2 ^ n - k') (none : Option Nat)).getD k' none = none := by
        have h := getD_append_length ((List.range k').map some)
          (List.replicate (2 ^ n - k') none)
        rw [hlen] at h
        rw [h, hrepl]
        simp
      have hset : ((List.range k').map some ++
            List.replicate (2 ^ n - k') (none : Option Nat)).set k' (some k')
          = (List.range k' ++ [k']).map some ++ List.replicate (2 ^ n - (k' + 1)) none := by
        have h := set_append_length ((List.range k').map some)
          (List.replicate (2 ^ n - k') none) (some k')
        rw [hlen] at h
        rw [h, hrepl]
        simp
      simp only [Ring.Push, hwi, hwival, hidx, hset, hold, Option.toList_none,
        List.append_nil]

end Nanozap

namespace Nanozap

theorem getD_set_self (l : List (Option Nat)) :
    ∀ (i : Nat) (v : Option Nat), i < l.length → (l.set i v).getD i none = v := by
  induction l with
  | nil => intro i v h; simp at h
  | cons x xs ih =>
      intro i v h
      cases i with
      | zero => simp
      | succ j => simpa using ih j v (by simpa using h)

/-- Draining a ring whose slots `j … cap-1` hold `f j … f (cap-1)`, whose
read cursor is `j`, whose write cursor is exactly `cap = 2^n` and whose
cache does not exceed `cap`: the drain pops those slots in ascending slot
order and then `TryPop` reports no data. -/
theorem Ring.Drain_section (n : Nat) (h2 : n ≤ 16) (f : Nat → Nat) :
    ∀ (fuel j c : Nat) (B : List (Option Nat)),
      j ≤ 2 ^ n → 2 ^ n - j < fuel → c ≤ 2 ^ n →
      B.length = 2 ^ n →
      (∀ i, j ≤ i → i < 2 ^ n → B.getD i none = some (f i)) →
      ((⟨2 ^ n - 1, 2 ^ n, c, j, B⟩ : Ring).Drain fuel).2
          = (List.range' j (2 ^ n - j)).map f ∧
      (((⟨2 ^ n - 1, 2 ^ n, c, j, B⟩ : Ring).Drain fuel).1.TryPop).2 = none := by
  have hcap : (2 : Nat) ^ n ≤ 2 ^ 16 := Nat.pow_le_pow_right (by norm_num) h2
  have hcap64 : (2 : Nat) ^ 16 < u64Mod := by unfold u64Mod; norm_num
  intro fuel
  induction fuel with
  | zero => intro j c B hj hfuel; omega
  | succ fuel' ih =>
      intro j c B hj hfuel hc hlen hslots
      by_cases hdone : j = 2 ^ n
      · subst hdone
        have htp : ∀ c', c' ≤ 2 ^ n →
            ((⟨2 ^ n - 1, 2 ^ n, c', 2 ^ n, B⟩ : Ring)).TryPop
              = (⟨2 ^ n - 1, 2 ^ n, 2 ^ n, 2 ^ n, B⟩, none) := by
          intro c' hc'
          unfold Ring.TryPop
          rw [if_pos (show (2 : Nat) ^ n ≥ c' from hc')]
          rw [if_pos (le_refl (2 ^ n))]
        have h1 := htp c hc
        constructor
        · simp only [Ring.Drain, h1]
          simp
        · simp only [Ring.Drain, h1]
          rw [htp (2 ^ n) (le_refl _)]
      · have hjlt : j < 2 ^ n := by omega
        have hidxj : j &&& (2 ^ n - 1) = j := and_mask_eq j n hjlt
        have hj1 : (j + 1) % u64Mod = j + 1 := Nat.mod_eq_of_lt (by omega)
        have hslotj : B.getD j none = some (f j) := hslots j (le_refl j) hjlt
        have hrange : List.range' j (2 ^ n - j) = j :: List.range' (j + 1) (2 ^ n - (j + 1)) := by
          have hh : 2 ^ n - j = (2 ^ n - (j + 1)) + 1 := by omega
          rw [hh, List.range']
        by_cases hjc : j ≥ c
        · have htp : ((⟨2 ^ n - 1, 2 ^ n, c, j, B⟩ : Ring)).TryPop
              = (⟨2 ^ n - 1, 2 ^ n, 2 ^ n, j + 1, B.set j none⟩, some (f j)) := by
            unfold Ring.TryPop
            rw [if_pos (show j ≥ c from hjc)]
            rw [if_neg (show ¬ j ≥ 2 ^ n by omega)]
            simp only [hidxj, hslotj, hj1]
          have hrec := ih (j + 1) (2 ^ n) (B.set j none) (by omega) (by omega)
            (le_refl _) (by simpa using hlen)
            (fun i hi1 hi2 => by
              rw [getD_set_ne B j i none (by omega)]
              exact hslots i (by omega) hi2)
          constructor
          · simp only [Ring.Drain, htp]
            rw [hrange]
            simp only [List.map_cons]
            rw [← hrec.1]
          · simp only [Ring.Drain, htp]
            exact hrec.2
        · have htp : ((⟨2 ^ n - 1, 2 ^ n, c, j, B⟩ : Ring)).TryPop
              = (⟨2 ^ n - 1, 2 ^ n, c, j + 1, B.set j none⟩, some (f j)) := by
            unfold Ring.TryPop
            rw [if_neg (show ¬ j ≥ c from hjc)]
            simp only [hidxj, hslotj, hj1]
          have hrec := ih (j + 1) c (B.set j none) (by omega) (by omega)
            hc (by simpa using hlen)
            (fun i hi1 hi2 => by
              rw [getD_set_ne B j i none (by omega)]
              exact hslots i (by omega) hi2)
          constructor
          · simp only [Ring.Drain, htp]
            rw [hrange]
            simp only [List.map_cons]
            rw [← hrec.1]
          · simp only [Ring.Drain, htp]
            exact hrec.2

end Nanozap

/-- **C4.** Overwrite policy of `Ring.Push` (`src/randring.go`): pushing
`capacity + 1` values `0 … capacity` into a fresh ring claims each slot in
order and, on the wrap-around push, replaces slot 0's previous occupant
(the oldest still-pending value `0`), returning it — and only it — to the
event pool immediately; the subsequent drain yields the last `capacity`
items in slot order (`capacity` in slot 0, then `1 … capacity-1`), after
which `TryPop` reports no data. -/
theorem C4_overwrite_policy (n : Nat) (h1 : 1 ≤ n) (h2 : n ≤ 16)
    (r : Nanozap.Ring) (hr : Nanozap.newRandRing n = .ok r) :
    (r.PushAll (List.range (2 ^ n + 1))).2 = [0] ∧
    ((r.PushAll (List.range (2 ^ n + 1))).1.Drain (2 ^ n + 1)).2
      = 2 ^ n :: List.range' 1 (2 ^ n - 1) ∧
    (((r.PushAll (List.range (2 ^ n + 1))).1.Drain (2 ^ n + 1)).1.TryPop).2
      = none := by
  have hcap : (2 : Nat) ^ n ≤ 2 ^ 16 := Nat.pow_le_pow_right (by norm_num) h2
  have hcap64 : (2 : Nat) ^ 16 < u64Mod := by unfold u64Mod; norm_num
  have hpos : 1 ≤ 2 ^ n := Nat.one_le_two_pow
  -- state after the first `capacity` pushes
  have hfill := Nanozap.Ring.PushAll_range n h2 (2 ^ n) (le_refl _) r hr
  -- the wrap-around push of the value `capacity`
  have hwiv : ((u64Mod - 1 + 2 ^ n) % u64Mod + 1) % u64Mod = 2 ^ n := by
    rw [Nanozap.succ_mod_u64]
    have hh : u64Mod - 1 + 2 ^ n + 1 = u64Mod + 2 ^ n := by unfold u64Mod; omega
    rw [hh, Nat.add_mod_left, Nat.mod_eq_of_lt (by omega)]
  have hidx0 : 2 ^ n &&& (2 ^ n - 1) = 0 := by
    rw [Nat.and_pow_two_sub_one_eq_mod, Nat.mod_self]
  have hB0 : ∀ i, i < 2 ^ n →
      ((List.range (2 ^ n)).map some).getD i none = some i := by
    intro i hi
    rw [List.range_eq_range', Nanozap.getD_map_some_range' (2 ^ n) 0 i hi, Nat.zero_add]
  have hlenB : ((List.range (2 ^ n)).map some).length = 2 ^ n := by simp
  have hpush : r.PushAll (List.range (2 ^ n + 1))
      = (⟨2 ^ n - 1, 2 ^ n, 0, 0,
          ((List.range (2 ^ n)).map some).set 0 (some (2 ^ n))⟩, [0]) := by
    rw [List.range_succ]
    simp only [Nanozap.Ring.PushAll] at hfill ⊢
    rw [List.foldl_append, hfill]
    simp only [List.foldl_cons, List.foldl_nil, Nanozap.Ring.Push, Nat.sub_self,
      List.replicate_zero, List.append_nil, hwiv, hidx0]
    rw [hB0 0 (by omega)]
    rfl
  have hslots : ∀ i, (0 : Nat) ≤ i → i < 2 ^ n →
      (((List.range (2 ^ n)).map some).set 0 (some (2 ^ n))).getD i none
        = some (if i = 0 then 2 ^ n else i) := by
    intro i hi0 hi
    by_cases h0 : i = 0
    · subst h0
      rw [Nanozap.getD_set_self _ 0 _ (by omega), if_pos rfl]
    · rw [Nanozap.getD_set_ne _ 0 i _ (by omega), hB0 i hi, if_neg h0]
  have hdrain := Nanozap.Ring.Drain_section n h2 (fun i => if i = 0 then 2 ^ n else i)
    (2 ^ n + 1) 0 0 (((List.range (2 ^ n)).map some).set 0 (some (2 ^ n)))
    (by omega) (by omega) (by omega) (by simpa using hlenB) hslots
  have hmap : (List.range' 0 (2 ^ n - 0)).map (fun i => if i = 0 then 2 ^ n else i)
      = 2 ^ n :: List.range' 1 (2 ^ n - 1) := by
    have hh : 2 ^ n - 0 = (2 ^ n - 1) + 1 := by omega
    rw [hh, List.range']
    simp only [List.map_cons, if_pos rfl, Nat.zero_add]
    congr 1
    have : ∀ i ∈ List.range' 1 (2 ^ n - 1), (if i = 0 then 2 ^ n else i) = i := by
      intro i hi
      have hmem := List.mem_range'_1.mp hi
      rw [if_neg (by omega)]
    rw [List.map_congr_left this, List.map_id']
  rw [hpush]
  exact ⟨rfl, by rw [hdrain.1, hmap], hdrain.2⟩

/-- Witness for C4 at `n = 1` (capacity 2): pushing `[0, 1, 2]` frees
exactly `[0]` and drains `[2, 1]`. -/
theorem C4_overwrite_policy_witness :
    ((⟨1, u64Mod - 1, 0, 0, [none, none]⟩ : Nanozap.Ring).PushAll
        (List.range (2 ^ 1 + 1))).2 = [0] ∧
    (((⟨1, u64Mod - 1, 0, 0, [none, none]⟩ : Nanozap.Ring).PushAll
        (List.range (2 ^ 1 + 1))).1.Drain (2 ^ 1 + 1)).2
      = 2 ^ 1 :: List.range' 1 (2 ^ 1 - 1) :=
  ⟨(C4_overwrite_policy 1 (by decide) (by decide) _ (by rfl)).1,
   (C4_overwrite_policy 1 (by decide) (by decide) _ (by rfl)).2.1⟩

namespace zaproll

/-- Exhaustive description of one `Rotation.openFile` call: a failing
rename returns immediately with the state untouched; otherwise the
backup is recorded (with a possible eviction), the current file is
replaced only when both directory creation and file open succeed, and
the error is nil exactly in that case. Besides the rename, the only
other effects are removals of evicted backups. -/
theorem openFile_cases (cfg : Config) (r : Rotation) (env : RotEnv) :
    (env.renameOk = false ∧
      Rotation.openFile cfg r env
        = (r, [.osRename cfg.OutputPath
                (makeBackupFP cfg.OutputPath cfg.LocalTime env.now).1 false],
           some "failed to rename log file")) ∨
    (env.renameOk = true ∧
      ∃ bks evs err,
        Rotation.openFile cfg r env
          = ({ r with backups := bks, f := if err = none then env.newFile else r.f },
             RotEvent.osRename cfg.OutputPath
               (makeBackupFP cfg.OutputPath cfg.LocalTime env.now).1 true :: evs,
             err) ∧
        (∀ e ∈ evs, ∃ fp, e = RotEvent.osRemove fp) ∧
        (err = none ↔ env.mkdirOk = true ∧ env.openOk = true)) := by
  have hremove : ∀ (bks : List Backup) (b : Backup),
      ∀ e ∈ (pushAndEvict cfg.MaxBackups bks b).2, ∃ fp, e = RotEvent.osRemove fp := by
    intro bks b e he
    unfold pushAndEvict at he
    simp only at he
    split at he
    · simp only [List.mem_map] at he
      obtain ⟨x, -, hx⟩ := he
      exact ⟨x.fp, hx.symm⟩
    · simp at he
  cases hrn : env.renameOk with
  | false =>
      left
      refine ⟨rfl, ?_⟩
      unfold Rotation.openFile
      rw [if_pos (by simp [hrn])]
  | true =>
      right
      refine ⟨rfl, ?_⟩
      cases hmk : env.mkdirOk with
      | false =>
          refine ⟨(pushAndEvict cfg.MaxBackups r.backups
              ⟨(makeBackupFP cfg.OutputPath cfg.LocalTime env.now).2,
               (makeBackupFP cfg.OutputPath cfg.LocalTime env.now).1⟩).1,
            (pushAndEvict cfg.MaxBackups r.backups
              ⟨(makeBackupFP cfg.OutputPath cfg.LocalTime env.now).2,
               (makeBackupFP cfg.OutputPath cfg.LocalTime env.now).1⟩).2,
            some "failed to make dirs for log file", ?_, hremove _ _, by simp⟩
          unfold Rotation.openFile
          rw [if_neg (by simp [hrn])]
          simp only
          rw [if_pos (by simp [hmk])]
          simp
      | true =>
          cases hop : env.openOk with
          | false =>
              refine ⟨(pushAndEvict cfg.MaxBackups r.backups
                  ⟨(makeBackupFP cfg.OutputPath cfg.LocalTime env.now).2,
                   (makeBackupFP cfg.OutputPath cfg.LocalTime env.now).1⟩).1,
                (pushAndEvict cfg.MaxBackups r.backups
                  ⟨(makeBackupFP cfg.OutputPath cfg.LocalTime env.now).2,
                   (makeBackupFP cfg.OutputPath cfg.LocalTime env.now).1⟩).2,
                some "failed to create log file", ?_, hremove _ _, by simp⟩
              unfold Rotation.openFile
              rw [if_neg (by simp [hrn])]
              simp only
              rw [if_neg (by simp [hmk]), if_pos (by simp [hop])]
              simp
          | true =>
              refine ⟨(pushAndEvict cfg.MaxBackups r.backups
                  ⟨(makeBackupFP cfg.OutputPath cfg.LocalTime env.now).2,
                   (makeBackupFP cfg.OutputPath cfg.LocalTime env.now).1⟩).1,
                (pushAndEvict cfg.MaxBackups r.backups
                  ⟨(makeBackupFP cfg.OutputPath cfg.LocalTime env.now).2,
                   (makeBackupFP cfg.OutputPath cfg.LocalTime env.now).1⟩).2,
                none, ?_, hremove _ _, by simp⟩
              unfold Rotation.openFile
              rw [if_neg (by simp [hrn])]
              simp only
              rw [if_neg (by simp [hmk]), if_neg (by simp [hop])]
              simp

/-- A `flushDirty` call attempts a rotation (observable by the rename it
issues first) exactly when `written` has reached the configured maximum
size. -/
theorem flushDirty_hasRename (cfg : Config) (r : Rotation) (force : Bool)
    (env : RotEnv) :
    hasRename (Rotation.flushDirty cfg r force env).2
      = decide (cfg.MaxSize ≤ r.written) := by
  simp only [Rotation.flushDirty]
  by_cases h1 : cfg.PerSyncSize ≤ r.dirty ∨ force = true
  · rw [if_pos h1]
    simp only
    by_cases h2 : cfg.MaxSize ≤ r.written
    · rw [if_pos h2]
      rcases openFile_cases cfg
          ({ r with synced := r.synced + r.dirty, dirty := 0 }) env with
        ⟨-, heq⟩ | ⟨-, bks, evs, err, heq, -, -⟩
      · rw [heq]
        simp [hasRename, h2, List.any_append]
      · rw [heq]
        by_cases herr : err = none <;>
          simp [herr, hasRename, h2, List.any_append]
    · rw [if_neg h2]
      simp [hasRename, h2]
  · rw [if_neg h1]
    simp only
    by_cases h2 : cfg.MaxSize ≤ r.written
    · rw [if_pos h2]
      rcases openFile_cases cfg r env with
        ⟨-, heq⟩ | ⟨-, bks, evs, err, heq, -, -⟩
      · rw [heq]
        simp [hasRename, h2, List.any_append]
      · rw [heq]
        by_cases herr : err = none <;>
          simp [herr, hasRename, h2, List.any_append]
    · rw [if_neg h2]
      simp [hasRename, h2]

end zaproll

/-- **C2 (counterexample).** A size-triggered rotation whose rename
fails does not surface any error to the caller of `Write`: with
`MaxSize = 10`, a sink that has written 5 bytes receives 5 more
(all flushed through), the rotation is attempted (the rename is issued
and fails), yet `Write` returns `(len(p), nil)` — the claim's "returns a
non-nil error whenever the rotation it triggered failed" is false. -/
theorem C2_counterexample :
    (zaproll.Rotation.Write ⟨"x.log", 10, 1, false, 4096, 100⟩
        ⟨[], 1, 1, 5, 5, 0⟩ 5 5 ⟨false, true, true, 2, ⟨2020, 1, 2, 3, 4, 5, 6, 0⟩⟩).2.2.2
      = none ∧
    zaproll.hasRename
      (zaproll.Rotation.Write ⟨"x.log", 10, 1, false, 4096, 100⟩
        ⟨[], 1, 1, 5, 5, 0⟩ 5 5 ⟨false, true, true, 2, ⟨2020, 1, 2, 3, 4, 5, 6, 0⟩⟩).2.1
      = true ∧
    (zaproll.RotEvent.osRename "x.log"
        (zaproll.makeBackupFP "x.log" false ⟨2020, 1, 2, 3, 4, 5, 6, 0⟩).1 false)
      ∈ (zaproll.Rotation.Write ⟨"x.log", 10, 1, false, 4096, 100⟩
        ⟨[], 1, 1, 5, 5, 0⟩ 5 5 ⟨false, true, true, 2, ⟨2020, 1, 2, 3, 4, 5, 6, 0⟩⟩).2.1 ∧
    (zaproll.Rotation.Write ⟨"x.log", 10, 1, false, 4096, 100⟩
        ⟨[], 1, 1, 5, 5, 0⟩ 5 5 ⟨false, true, true, 2, ⟨2020, 1, 2, 3, 4, 5, 6, 0⟩⟩).1.f
      = 1 := by decide

/-- **C2 (amended).** Rename and file-open failures during a
size-triggered rotation are swallowed, not propagated: `Rotation.Write`
and `Rotation.Sync` return a nil error unconditionally (the sink keeps
its previous file). Only during initial setup are failures surfaced:
`prepare` (hence `New`) rejects an empty output path and propagates
directory-creation, directory-scan and file-open failures. -/
theorem C2_error_propagation (cfg : zaproll.Config) (r : zaproll.Rotation)
    (plen fw fw2 : Nat) (env env2 : zaproll.RotEnv) (penv : zaproll.PrepEnv) :
    (zaproll.Rotation.Write cfg r plen fw env).2.2.2 = none ∧
    (zaproll.Rotation.Sync cfg r fw2 env2).2.2 = none ∧
    (cfg.OutputPath = "" → zaproll.prepare cfg penv = .error "empty log file path") ∧
    (penv.scan.mkdirOk = false → (zaproll.prepare cfg penv).isOk = false) ∧
    (penv.scan.readDirOk = false → (zaproll.prepare cfg penv).isOk = false) ∧
    (penv.openOk = false → (zaproll.prepare cfg penv).isOk = false) := by
  refine ⟨?_, rfl, ?_, ?_, ?_, ?_⟩
  · unfold zaproll.Rotation.Write
    split <;> rfl
  · intro h
    unfold zaproll.prepare
    rw [if_pos h]
  · intro h
    unfold zaproll.prepare
    split
    · rfl
    · unfold zaproll.Backups.list
      rw [if_pos (by simp [h])]
      rfl
  · intro h
    unfold zaproll.prepare
    split
    · rfl
    · unfold zaproll.Backups.list
      by_cases h2 : penv.scan.mkdirOk = true
      · rw [if_neg (by simp [h2]), if_pos (by simp [h])]
        rfl
      · rw [if_pos (by simpa using h2)]
        rfl
  · intro h
    unfold zaproll.prepare
    split
    · rfl
    · unfold zaproll.Backups.list
      by_cases h2 : penv.scan.mkdirOk = true
      · by_cases h3 : penv.scan.readDirOk = true
        · rw [if_neg (by simp [h2]), if_neg (by simp [h3])]
          simp only
          rw [if_neg (by simp [h2]), if_pos (by simp [h])]
          rfl
        · rw [if_neg (by simp [h2]), if_pos (by simpa using h3)]
          rfl
      · rw [if_pos (by simpa using h2)]
        rfl

/-- Witness for C2 (amended): a failing directory creation at
construction is propagated; a `Write` on a healthy sink returns nil. -/
theorem C2_error_propagation_witness :
    (zaproll.prepare ⟨"x.log", 10, 1, false, 4096, 100⟩
        ⟨⟨false, true, []⟩, true, 1⟩).isOk = false ∧
    (zaproll.Rotation.Write ⟨"x.log", 10, 1, false, 4096, 100⟩
        ⟨[], 1, 1, 0, 0, 0⟩ 3 0 ⟨true, true, true, 2, ⟨2020, 1, 2, 3, 4, 5, 6, 0⟩⟩).2.2.2
      = none :=
  ⟨(C2_error_propagation ⟨"x.log", 10, 1, false, 4096, 100⟩ ⟨[], 1, 1, 0, 0, 0⟩ 3 0 0
      ⟨true, true, true, 2, ⟨2020, 1, 2, 3, 4, 5, 6, 0⟩⟩
      ⟨true, true, true, 2, ⟨2020, 1, 2, 3, 4, 5, 6, 0⟩⟩
      ⟨⟨false, true, []⟩, true, 1⟩).2.2.2.1 rfl,
   (C2_error_propagation ⟨"x.log", 10, 1, false, 4096, 100⟩ ⟨[], 1, 1, 0, 0, 0⟩ 3 0 0
      ⟨true, true, true, 2, ⟨2020, 1, 2, 3, 4, 5, 6, 0⟩⟩
      ⟨true, true, true, 2, ⟨2020, 1, 2, 3, 4, 5, 6, 0⟩⟩
      ⟨⟨false, true, []⟩, true, 1⟩).1⟩

namespace zaproll

/-- A size-triggered rotation whose rename / directory creation / file
open fails leaves the previous file as the sink's current file and the
buffered writer's target, never closes it, and still resets all three
byte counters. -/
theorem flushDirty_fail_state (cfg : Config) (r : Rotation) (force : Bool)
    (env : RotEnv) (htrig : cfg.MaxSize ≤ r.written)
    (hfail : env.renameOk = false ∨ env.mkdirOk = false ∨ env.openOk = false) :
    ∃ bks evs,
      Rotation.flushDirty cfg r force env
        = ({ r with backups := bks, written := 0, dirty := 0, synced := 0 }, evs) ∧
      (∀ fid, RotEvent.closeFile fid ∉ evs) := by
  have herr : ∀ (r' : Rotation),
      (Rotation.openFile cfg r' env).2.2 ≠ none ∧
      (Rotation.openFile cfg r' env).1.f = r'.f ∧
      (Rotation.openFile cfg r' env).1.bufFile = r'.bufFile ∧
      (Rotation.openFile cfg r' env).1.written = r'.written ∧
      (Rotation.openFile cfg r' env).1.dirty = r'.dirty ∧
      (Rotation.openFile cfg r' env).1.synced = r'.synced ∧
      (∀ fid, RotEvent.closeFile fid ∉ (Rotation.openFile cfg r' env).2.1) := by
    intro r'
    rcases openFile_cases cfg r' env with ⟨hrn, heq⟩ | ⟨hrn, bks, evs, err, heq, hrem, hiff⟩
    · rw [heq]
      simp
    · have herrne : err ≠ none := by
        intro hcontra
        rcases (hiff.mp hcontra) with ⟨hm, ho⟩
        rcases hfail with h | h | h <;> simp_all
      rw [heq]
      refine ⟨by simpa using herrne, by simp [if_neg herrne], rfl, rfl, rfl, rfl, ?_⟩
      intro fid hmem
      simp only [List.mem_cons] at hmem
      rcases hmem with h | h
      · cases h
      · obtain ⟨fp, hfp⟩ := hrem _ h
        cases hfp
  simp only [Rotation.flushDirty]
  by_cases h1 : cfg.PerSyncSize ≤ r.dirty ∨ force = true
  · rw [if_pos h1]
    simp only
    rw [if_pos htrig]
    have h := herr { r with synced := r.synced + r.dirty, dirty := 0 }
    rw [if_neg h.1]
    refine ⟨(Rotation.openFile cfg { r with synced := r.synced + r.dirty, dirty := 0 } env).1.backups,
      [RotEvent.flushHint r.f r.synced r.dirty]
        ++ (Rotation.openFile cfg { r with synced := r.synced + r.dirty, dirty := 0 } env).2.1
        ++ [], ?_, ?_⟩
    · rw [Prod.mk.injEq]
      constructor
      · have h2 := h.2.1
        have h3 := h.2.2.1
        simp only at h2 h3
        simp only
        rw [h2, h3]
      · rfl
    · intro fid hmem
      simp only [List.mem_append] at hmem
      rcases hmem with (h' | h') | h'
      · simp at h'
      · exact h.2.2.2.2.2.2 fid h'
      · simp at h'
  · rw [if_neg h1]
    simp only
    rw [if_pos htrig]
    have h := herr r
    rw [if_neg h.1]
    refine ⟨(Rotation.openFile cfg r env).1.backups,
      [] ++ (Rotation.openFile cfg r env).2.1 ++ [], ?_, ?_⟩
    · rw [Prod.mk.injEq]
      constructor
      · have h2 := h.2.1
        have h3 := h.2.2.1
        simp only
        rw [h2, h3]
      · rfl
    · intro fid hmem
      simp only [List.mem_append] at hmem
      rcases hmem with (h' | h') | h'
      · simp at h'
      · exact h.2.2.2.2.2.2 fid h'
      · simp at h'

end zaproll

/-- **C6.** Rotation-failure atomicity and no retry: when the rotation
triggered by `written` reaching `MaxSize` fails (rename, directory
creation or file open), the previously open file remains the sink's
current file and the buffered writer's target and is not closed; the
counters are reset, so a subsequent `Write` (respectively `Sync`)
attempts a rotation — observable by the rename it issues — exactly when
its flushed bytes alone reach `MaxSize` again. -/
theorem C6_failed_rotation_atomic (cfg : zaproll.Config) (r : zaproll.Rotation)
    (force : Bool) (env : zaproll.RotEnv)
    (htrig : cfg.MaxSize ≤ r.written)
    (hfail : env.renameOk = false ∨ env.mkdirOk = false ∨ env.openOk = false) :
    (zaproll.Rotation.flushDirty cfg r force env).1.f = r.f ∧
    (zaproll.Rotation.flushDirty cfg r force env).1.bufFile = r.bufFile ∧
    (zaproll.Rotation.flushDirty cfg r force env).1.written = 0 ∧
    (zaproll.Rotation.flushDirty cfg r force env).1.dirty = 0 ∧
    (zaproll.Rotation.flushDirty cfg r force env).1.synced = 0 ∧
    (∀ fid, zaproll.RotEvent.closeFile fid
        ∉ (zaproll.Rotation.flushDirty cfg r force env).2) ∧
    (∀ plen' fw' env', zaproll.hasRename
        (zaproll.Rotation.Write cfg (zaproll.Rotation.flushDirty cfg r force env).1
          plen' fw' env').2.1 = true
      ↔ fw' ≠ 0 ∧ cfg.MaxSize ≤ fw') ∧
    (∀ fw' env', zaproll.hasRename
        (zaproll.Rotation.Sync cfg (zaproll.Rotation.flushDirty cfg r force env).1
          fw' env').2.1 = true
      ↔ cfg.MaxSize ≤ fw') := by
  obtain ⟨bks, evs, heq, hnoclose⟩ :=
    zaproll.flushDirty_fail_state cfg r force env htrig hfail
  rw [heq]
  refine ⟨rfl, rfl, rfl, rfl, rfl, hnoclose, ?_, ?_⟩
  · intro plen' fw' env'
    simp only [zaproll.Rotation.Write]
    by_cases hfw : fw' = 0
    · rw [if_pos hfw]
      simp [zaproll.hasRename, hfw]
    · rw [if_neg hfw]
      simp only
      rw [zaproll.flushDirty_hasRename]
      simp [hfw]
  · intro fw' env'
    simp only [zaproll.Rotation.Sync]
    rw [zaproll.flushDirty_hasRename]
    simp

/-- Witness for C6: a sink at the size threshold whose rename fails
keeps file 1 open and targeted, resets the counters, and does not rotate
again on a small write. -/
theorem C6_failed_rotation_atomic_witness :
    (zaproll.Rotation.flushDirty ⟨"x.log", 10, 1, false, 4096, 100⟩
        ⟨[], 1, 1, 10, 0, 10⟩ false
        ⟨false, true, true, 2, ⟨2020, 1, 2, 3, 4, 5, 6, 0⟩⟩).1.f = 1 ∧
    (zaproll.Rotation.flushDirty ⟨"x.log", 10, 1, false, 4096, 100⟩
        ⟨[], 1, 1, 10, 0, 10⟩ false
        ⟨false, true, true, 2, ⟨2020, 1, 2, 3, 4, 5, 6, 0⟩⟩).1.written = 0 :=
  ⟨(C6_failed_rotation_atomic ⟨"x.log", 10, 1, false, 4096, 100⟩
      ⟨[], 1, 1, 10, 0, 10⟩ false ⟨false, true, true, 2, ⟨2020, 1, 2, 3, 4, 5, 6, 0⟩⟩
      (by decide) (.inl rfl)).1,
   (C6_failed_rotation_atomic ⟨"x.log", 10, 1, false, 4096, 100⟩
      ⟨[], 1, 1, 10, 0, 10⟩ false ⟨false, true, true, 2, ⟨2020, 1, 2, 3, 4, 5, 6, 0⟩⟩
      (by decide) (.inl rfl)).2.2.1⟩

namespace zaproll

/-- `flushDirty` preserves the equation `written = synced + dirty`. -/
theorem flushDirty_inv (cfg : Config) (r : Rotation) (force : Bool)
    (env : RotEnv) (hinv : r.written = r.synced + r.dirty) :
    (Rotation.flushDirty cfg r force env).1.written
      = (Rotation.flushDirty cfg r force env).1.synced
        + (Rotation.flushDirty cfg r force env).1.dirty := by
  simp only [Rotation.flushDirty]
  by_cases h1 : cfg.PerSyncSize ≤ r.dirty ∨ force = true
  · rw [if_pos h1]
    simp only
    by_cases h2 : cfg.MaxSize ≤ r.written
    · rw [if_pos h2]
      split <;> rfl
    · rw [if_neg h2]
      simpa using hinv
  · rw [if_neg h1]
    simp only
    by_cases h2 : cfg.MaxSize ≤ r.written
    · rw [if_pos h2]
      split <;> rfl
    · rw [if_neg h2]
      exact hinv

/-- The counter equation holds in every state reachable by `Write` and
`Sync` from a state satisfying it. -/
theorem RunOps_inv (cfg : Config) (ops : List RotOp) :
    ∀ r : Rotation, r.written = r.synced + r.dirty →
      (Rotation.RunOps cfg r ops).written
        = (Rotation.RunOps cfg r ops).synced + (Rotation.RunOps cfg r ops).dirty := by
  induction ops with
  | nil => intro r hinv; exact hinv
  | cons op ops ih =>
      intro r hinv
      cases op with
      | write plen fw env =>
          simp only [Rotation.RunOps]
          refine ih _ ?_
          simp only [Rotation.Write]
          by_cases hfw : fw = 0
          · rw [if_pos hfw]
            simp only
            omega
          · rw [if_neg hfw]
            simp only
            exact flushDirty_inv cfg _ false env (by simp only; omega)
      | sync fw env =>
          simp only [Rotation.RunOps]
          refine ih _ ?_
          simp only [Rotation.Sync]
          exact flushDirty_inv cfg _ true env (by simp only; omega)

/-- States produced by `prepare` start with all byte counters zero. -/
theorem prepare_counters (cfg : Config) (penv : PrepEnv) (r : Rotation)
    (h : prepare cfg penv = .ok r) :
    r.written = 0 ∧ r.dirty = 0 ∧ r.synced = 0 := by
  unfold prepare at h
  split at h
  · cases h
  · split at h
    · cases h
    · split at h
      · cases h
      · split at h
        · cases h
        · cases h
          exact ⟨rfl, rfl, rfl⟩

end zaproll

/-- **C10.** Counter invariant of the rotating sink: starting from any
state `prepare` constructs, the equation `written = synced + dirty`
holds after every sequence of `Write` and `Sync` calls; the flush hint
issued by the dirty-threshold branch is placed at file offset `synced`
with length `dirty = written - synced`, so it covers exactly the bytes
written but not yet hinted; and whenever a rotation is attempted (even a
failing one) all three counters are zero afterwards. -/
theorem C10_counter_invariant (cfg : zaproll.Config) (penv : zaproll.PrepEnv)
    (r0 : zaproll.Rotation) (h0 : zaproll.prepare cfg penv = .ok r0)
    (ops : List zaproll.RotOp) :
    ((zaproll.Rotation.RunOps cfg r0 ops).written
      = (zaproll.Rotation.RunOps cfg r0 ops).synced
        + (zaproll.Rotation.RunOps cfg r0 ops).dirty) ∧
    (∀ (r : zaproll.Rotation) (force : Bool) (env : zaproll.RotEnv),
      r.written = r.synced + r.dirty →
      (cfg.PerSyncSize ≤ r.dirty ∨ force = true) →
      (zaproll.Rotation.flushDirty cfg r force env).2.head?
        = some (.flushHint r.f r.synced (r.written - r.synced))) ∧
    (∀ (r : zaproll.Rotation) (force : Bool) (env : zaproll.RotEnv),
      cfg.MaxSize ≤ r.written →
      (zaproll.Rotation.flushDirty cfg r force env).1.written = 0 ∧
      (zaproll.Rotation.flushDirty cfg r force env).1.dirty = 0 ∧
      (zaproll.Rotation.flushDirty cfg r force env).1.synced = 0) := by
  obtain ⟨hw, hd, hs⟩ := zaproll.prepare_counters cfg penv r0 h0
  refine ⟨zaproll.RunOps_inv cfg ops r0 (by omega), ?_, ?_⟩
  · intro r force env hinv hfire
    have hlen : r.dirty = r.written - r.synced := by omega
    simp only [zaproll.Rotation.flushDirty]
    rw [if_pos hfire]
    simp only
    by_cases h2 : cfg.MaxSize ≤ r.written
    · rw [if_pos h2]
      split <;> simp [hlen]
    · rw [if_neg h2]
      simp [hlen]
  · intro r force env h2
    simp only [zaproll.Rotation.flushDirty]
    by_cases h1 : cfg.PerSyncSize ≤ r.dirty ∨ force = true
    · rw [if_pos h1]
      simp only
      rw [if_pos h2]
      split <;> exact ⟨rfl, rfl, rfl⟩
    · rw [if_neg h1]
      simp only
      rw [if_pos h2]
      split <;> exact ⟨rfl, rfl, rfl⟩

/-- Witness for C10 on a concrete prepared sink and a two-operation
run. -/
theorem C10_counter_invariant_witness :
    (zaproll.Rotation.RunOps ⟨"x.log", 10, 1, false, 4096, 100⟩ ⟨[], 1, 1, 0, 0, 0⟩
        [.write 3 3 ⟨true, true, true, 2, ⟨2020, 1, 2, 3, 4, 5, 6, 0⟩⟩,
         .sync 2 ⟨true, true, true, 3, ⟨2020, 1, 2, 3, 4, 5, 6, 0⟩⟩]).written
      = (zaproll.Rotation.RunOps ⟨"x.log", 10, 1, false, 4096, 100⟩ ⟨[], 1, 1, 0, 0, 0⟩
        [.write 3 3 ⟨true, true, true, 2, ⟨2020, 1, 2, 3, 4, 5, 6, 0⟩⟩,
         .sync 2 ⟨true, true, true, 3, ⟨2020, 1, 2, 3, 4, 5, 6, 0⟩⟩]).synced
        + (zaproll.Rotation.RunOps ⟨"x.log", 10, 1, false, 4096, 100⟩ ⟨[], 1, 1, 0, 0, 0⟩
        [.write 3 3 ⟨true, true, true, 2, ⟨2020, 1, 2, 3, 4, 5, 6, 0⟩⟩,
         .sync 2 ⟨true, true, true, 3, ⟨2020, 1, 2, 3, 4, 5, 6, 0⟩⟩]).dirty :=
  (C10_counter_invariant ⟨"x.log", 10, 1, false, 4096, 100⟩ ⟨⟨true, true, []⟩, true, 1⟩
    ⟨[], 1, 1, 0, 0, 0⟩ (by rfl)
    [.write 3 3 ⟨true, true, true, 2, ⟨2020, 1, 2, 3, 4, 5, 6, 0⟩⟩,
     .sync 2 ⟨true, true, true, 3, ⟨2020, 1, 2, 3, 4, 5, 6, 0⟩⟩]).1

namespace gotime

theorem digitVal_digitChar (d : Nat) : digitVal (digitChar d) = some (d % 10) := by
  have h : d % 10 < 10 := Nat.mod_lt _ (by norm_num)
  unfold digitVal digitChar
  set k := d % 10 with hk
  interval_cases k <;> decide

theorem parse2_pad2 (x : Nat) (rest : List Char) (h : x ≤ 99) :
    parse2 (pad2 x ++ rest) = some (x, rest) := by
  unfold pad2
  simp only [List.cons_append, List.nil_append, parse2, digitVal_digitChar]
  congr 2
  omega

theorem parse3_pad3 (x : Nat) (rest : List Char) (h : x ≤ 999) :
    parse3 (pad3 x ++ rest) = some (x, rest) := by
  have h2 : parse2 ([digitChar (x / 10), digitChar x] ++ rest)
      = some (x % 100, rest) := by
    simp only [List.cons_append, List.nil_append, parse2, digitVal_digitChar]
    congr 2
    omega
  unfold pad3
  simp only [List.cons_append, List.nil_append] at h2 ⊢
  simp only [parse3, digitVal_digitChar, h2]
  congr 2
  omega

theorem parse4_pad4 (x : Nat) (rest : List Char) (h : x ≤ 9999) :
    parse4 (pad4 x ++ rest) = some (x, rest) := by
  have h3 : parse3 ([digitChar (x / 100), digitChar (x / 10), digitChar x] ++ rest)
      = some (x % 1000, rest) := by
    have h2 : parse2 ([digitChar (x / 10), digitChar x] ++ rest)
        = some (x % 100, rest) := by
      simp only [List.cons_append, List.nil_append, parse2, digitVal_digitChar]
      congr 2
      omega
    simp only [List.cons_append, List.nil_append] at h2 ⊢
    simp only [parse3, digitVal_digitChar, h2]
    congr 2
    omega
  unfold pad4
  simp only [List.cons_append, List.nil_append] at h3 ⊢
  simp only [parse4, digitVal_digitChar, h3]
  congr 2
  omega

theorem expectChar_cons (c : Char) (l : List Char) : expectChar c (c :: l) = some l := by
  simp [expectChar]

theorem parseZone_formatZone (off : Int) (h1 : -(1440 : Int) < off) (h2 : off < 1440) :
    parseZone (formatZone off) = some off := by
  unfold formatZone
  by_cases h0 : off = 0
  · rw [if_pos h0, h0]
    rfl
  · rw [if_neg h0]
    have hd : off.natAbs / 60 ≤ 99 := by omega
    have hm : off.natAbs % 60 ≤ 99 := by omega
    by_cases hneg : off < 0
    · rw [if_pos hneg]
      show parseZone ('-' :: (pad2 (off.natAbs / 60) ++ pad2 (off.natAbs % 60))) = some off
      have e1 := parse2_pad2 (off.natAbs / 60) (pad2 (off.natAbs % 60)) hd
      have e2 : parse2 (pad2 (off.natAbs % 60) ++ []) = some (off.natAbs % 60, []) :=
        parse2_pad2 _ _ hm
      rw [List.append_nil] at e2
      simp only [parseZone, e1, e2]
      congr 1
      omega
    · rw [if_neg hneg]
      show parseZone ('+' :: (pad2 (off.natAbs / 60) ++ pad2 (off.natAbs % 60))) = some off
      have e1 := parse2_pad2 (off.natAbs / 60) (pad2 (off.natAbs % 60)) hd
      have e2 : parse2 (pad2 (off.natAbs % 60) ++ []) = some (off.natAbs % 60, []) :=
        parse2_pad2 _ _ hm
      rw [List.append_nil] at e2
      simp only [parseZone, e1, e2]
      congr 1
      omega

/-- Civil fields the fixed-width layout can print and re-read. -/
theorem parse_format (t : GoTime)
    (hy : t.year ≤ 9999) (hm1 : 1 ≤ t.month) (hm2 : t.month ≤ 12)
    (hd1 : 1 ≤ t.day) (hd2 : t.day ≤ daysInMonth t.year t.month)
    (hh : t.hour ≤ 23) (hmi : t.minute ≤ 59) (hs : t.sec ≤ 59)
    (hms : t.millis ≤ 999)
    (ho1 : -(1440 : Int) < t.offMin) (ho2 : t.offMin < 1440) :
    parseBackupTime (formatBackupTime t) = some t := by
  unfold formatBackupTime
  have e1 := parse4_pad4 t.year
    ('-' :: pad2 t.month ++ '-' :: pad2 t.day ++ 'T' :: pad2 t.hour
      ++ ':' :: pad2 t.minute ++ ':' :: pad2 t.sec ++ '.' :: pad3 t.millis
      ++ formatZone t.offMin) hy
  have e2 := parse2_pad2 t.month
    ('-' :: pad2 t.day ++ 'T' :: pad2 t.hour
      ++ ':' :: pad2 t.minute ++ ':' :: pad2 t.sec ++ '.' :: pad3 t.millis
      ++ formatZone t.offMin) (by omega)
  have hdim : daysInMonth t.year t.month ≤ 31 := by
    unfold daysInMonth
    split
    · split <;> omega
    · split <;> omega
  have e3 := parse2_pad2 t.day
    ('T' :: pad2 t.hour ++ ':' :: pad2 t.minute ++ ':' :: pad2 t.sec
      ++ '.' :: pad3 t.millis ++ formatZone t.offMin) (by omega)
  have e4 := parse2_pad2 t.hour
    (':' :: pad2 t.minute ++ ':' :: pad2 t.sec ++ '.' :: pad3 t.millis
      ++ formatZone t.offMin) (by omega)
  have e5 := parse2_pad2 t.minute
    (':' :: pad2 t.sec ++ '.' :: pad3 t.millis ++ formatZone t.offMin) (by omega)
  have e6 := parse2_pad2 t.sec
    ('.' :: pad3 t.millis ++ formatZone t.offMin) (by omega)
  have e7 := parse3_pad3 t.millis (formatZone t.offMin) (by omega)
  have e8 := parseZone_formatZone t.offMin ho1 ho2
  simp only [List.append_assoc, List.cons_append] at e1 e2 e3 e4 e5 e6 e7 ⊢
  simp only [parseBackupTime, e1, expectChar_cons, e2, e3, e4, e5, e6, e7, e8]
  rw [if_pos ⟨hm1, hm2, hd1, hd2, hh, hmi, hs⟩]

end gotime

namespace gotime

theorem sub_div_mul_eq_mod (z : Nat) : z - z / 400 * 400 = z % 400 := by omega

theorem nonleap_div (A : Nat) (h1 : 1 ≤ A) (h4 : A % 4 = 0 → A % 100 = 0) :
    A / 4 - A / 100 = (A - 1) / 4 - (A - 1) / 100 := by omega

theorem leap_div (A : Nat) (h4 : A % 4 = 0) (h100 : A % 100 ≠ 0) :
    A / 4 - A / 100 = (A - 1) / 4 - (A - 1) / 100 + 1 := by omega

/-- Within a month, the day-of-month is one-to-one with epoch days. -/
theorem dfc_same (y m d : Nat) (hd1 : 1 ≤ d) :
    daysFromCivil y m (d+1) = daysFromCivil y m d + 1 := by
  unfold daysFromCivil
  simp only [sub_div_mul_eq_mod]
  by_cases hc : m ≤ 2
  · rw [if_pos hc]
    omega
  · rw [if_neg hc]
    omega

set_option maxHeartbeats 1600000 in
/-- Rolling over from the last day of a month (before December) to the
first day of the next month adds one epoch day. -/
theorem dfc_roll (y m : Nat) (hm1 : 1 ≤ m) (hm12 : m < 12) :
    daysFromCivil y (m+1) 1 = daysFromCivil y m (daysInMonth y m) + 1 := by
  have f12 : (if (1:Nat) ≤ 2 then (1:Nat) else 0) = 1 := rfl
  have f22 : (if (2:Nat) ≤ 2 then (1:Nat) else 0) = 1 := rfl
  have f32 : (if (3:Nat) ≤ 2 then (1:Nat) else 0) = 0 := rfl
  have f42 : (if (4:Nat) ≤ 2 then (1:Nat) else 0) = 0 := rfl
  have f52 : (if (5:Nat) ≤ 2 then (1:Nat) else 0) = 0 := rfl
  have f62 : (if (6:Nat) ≤ 2 then (1:Nat) else 0) = 0 := rfl
  have f72 : (if (7:Nat) ≤ 2 then (1:Nat) else 0) = 0 := rfl
  have f82 : (if (8:Nat) ≤ 2 then (1:Nat) else 0) = 0 := rfl
  have f92 : (if (9:Nat) ≤ 2 then (1:Nat) else 0) = 0 := rfl
  have f102 : (if (10:Nat) ≤ 2 then (1:Nat) else 0) = 0 := rfl
  have f112 : (if (11:Nat) ≤ 2 then (1:Nat) else 0) = 0 := rfl
  have f122 : (if (12:Nat) ≤ 2 then (1:Nat) else 0) = 0 := rfl
  interval_cases m
  · rw [show daysInMonth y 1 = 31 from by simp [daysInMonth]]
    unfold daysFromCivil
    simp only [sub_div_mul_eq_mod, f12, f22]
    omega
  · by_cases hl : isLeap y = true
    · rw [show daysInMonth y 2 = 29 from by simp [daysInMonth, hl]]
      unfold isLeap at hl
      simp only [Bool.or_eq_true, Bool.and_eq_true, decide_eq_true_eq,
        bne_iff_ne, ne_eq, beq_iff_eq] at hl
      rcases hl with ⟨h4, h100⟩ | h400
      · have e1 : (y+400)/400 = (y+399)/400 := by omega
        have e2 : (y+400)%400 = (y+399)%400 + 1 := by omega
        have hA4 : (y+400)%400 % 4 = 0 := by omega
        have hA100 : (y+400)%400 % 100 ≠ 0 := by omega
        have e5 : (y+400)%400/4 - (y+400)%400/100
            = (y+399)%400/4 - (y+399)%400/100 + 1 := by
          have h := leap_div ((y+400)%400) hA4 hA100
          omega
        unfold daysFromCivil
        simp only [sub_div_mul_eq_mod, f22, f32]
        omega
      · have e0 : (y+400)%400 = 0 := by omega
        have e1 : (y+400)/400 = (y+399)/400 + 1 := by omega
        have e2 : (y+399)%400 = 399 := by omega
        unfold daysFromCivil
        simp only [sub_div_mul_eq_mod, f22, f32]
        omega
    · rw [show daysInMonth y 2 = 28 from by simp [daysInMonth, hl]]
      unfold isLeap at hl
      simp only [Bool.or_eq_true, Bool.and_eq_true, decide_eq_true_eq,
        bne_iff_ne, ne_eq, beq_iff_eq] at hl
      push_neg at hl
      obtain ⟨h4, h400⟩ := hl
      have e1 : (y+400)/400 = (y+399)/400 := by omega
      have e2 : (y+400)%400 = (y+399)%400 + 1 := by omega
      have hA1 : 1 ≤ (y+400)%400 := by omega
      have hA4 : (y+400)%400 % 4 = 0 → (y+400)%400 % 100 = 0 := by omega
      have e5 : (y+400)%400/4 - (y+400)%400/100
          = (y+399)%400/4 - (y+399)%400/100 := by
        have h := nonleap_div ((y+400)%400) hA1 hA4
        omega
      unfold daysFromCivil
      simp only [sub_div_mul_eq_mod, f22, f32]
      omega
  · rw [show daysInMonth y 3 = 31 from by simp [daysInMonth]]
    unfold daysFromCivil
    simp only [sub_div_mul_eq_mod, f32, f42]
    omega
  · rw [show daysInMonth y 4 = 30 from by simp [daysInMonth]]
    unfold daysFromCivil
    simp only [sub_div_mul_eq_mod, f42, f52]
    omega
  · rw [show daysInMonth y 5 = 31 from by simp [daysInMonth]]
    unfold daysFromCivil
    simp only [sub_div_mul_eq_mod, f52, f62]
    omega
  · rw [show daysInMonth y 6 = 30 from by simp [daysInMonth]]
    unfold daysFromCivil
    simp only [sub_div_mul_eq_mod, f62, f72]
    omega
  · rw [show daysInMonth y 7 = 31 from by simp [daysInMonth]]
    unfold daysFromCivil
    simp only [sub_div_mul_eq_mod, f72, f82]
    omega
  · rw [show daysInMonth y 8 = 31 from by simp [daysInMonth]]
    unfold daysFromCivil
    simp only [sub_div_mul_eq_mod, f82, f92]
    omega
  · rw [show daysInMonth y 9 = 30 from by simp [daysInMonth]]
    unfold daysFromCivil
    simp only [sub_div_mul_eq_mod, f92, f102]
    omega
  · rw [show daysInMonth y 10 = 31 from by simp [daysInMonth]]
    unfold daysFromCivil
    simp only [sub_div_mul_eq_mod, f102, f112]
    omega
  · rw [show daysInMonth y 11 = 30 from by simp [daysInMonth]]
    unfold daysFromCivil
    simp only [sub_div_mul_eq_mod, f112, f122]
    omega

/-- Rolling over from December 31 to January 1 adds one epoch day. -/
theorem dfc_dec (y : Nat) :
    daysFromCivil (y+1) 1 1 = daysFromCivil y 12 31 + 1 := by
  have f12 : (if (1:Nat) ≤ 2 then (1:Nat) else 0) = 1 := rfl
  have f122 : (if (12:Nat) ≤ 2 then (1:Nat) else 0) = 0 := rfl
  unfold daysFromCivil
  simp only [sub_div_mul_eq_mod, f12, f122]
  omega

/-- Moving to the next civil day adds exactly one epoch day. -/
theorem daysFromCivil_nextDay (y m d : Nat) (hm1 : 1 ≤ m)
    (hm2 : m ≤ 12) (hd1 : 1 ≤ d) (hd2 : d ≤ daysInMonth y m) :
    daysFromCivil (nextDay y m d).1 (nextDay y m d).2.1 (nextDay y m d).2.2
      = daysFromCivil y m d + 1 := by
  unfold nextDay
  by_cases hlt : d < daysInMonth y m
  · rw [if_pos hlt]
    show daysFromCivil y m (d+1) = daysFromCivil y m d + 1
    exact dfc_same y m d hd1
  · rw [if_neg hlt]
    have hdeq : d = daysInMonth y m := le_antisymm hd2 (not_lt.mp hlt)
    by_cases hm12 : m < 12
    · rw [if_pos hm12]
      show daysFromCivil y (m+1) 1 = daysFromCivil y m d + 1
      rw [hdeq]
      exact dfc_roll y m hm1 hm12
    · rw [if_neg hm12]
      have hm' : m = 12 := by omega
      subst hm'
      show daysFromCivil (y+1) 1 1 = daysFromCivil y 12 d + 1
      have hd31 : d = 31 := by simpa [daysInMonth] using hdeq
      rw [hd31]
      exact dfc_dec y

/-- Moving to the previous civil day removes exactly one epoch day. -/
theorem daysFromCivil_prevDay (y m d : Nat) (hy1 : 1 ≤ y) (hm1 : 1 ≤ m)
    (hm2 : m ≤ 12) (hd1 : 1 ≤ d) :
    daysFromCivil (prevDay y m d).1 (prevDay y m d).2.1 (prevDay y m d).2.2
      = daysFromCivil y m d - 1 := by
  unfold prevDay
  by_cases hd2 : 1 < d
  · rw [if_pos hd2]
    show daysFromCivil y m (d-1) = daysFromCivil y m d - 1
    have h := dfc_same y m (d-1) (by omega)
    rw [show d - 1 + 1 = d from by omega] at h
    omega
  · rw [if_neg hd2]
    have hd1' : d = 1 := by omega
    by_cases hm2' : 1 < m
    · rw [if_pos hm2']
      show daysFromCivil y (m-1) (daysInMonth y (m-1)) = daysFromCivil y m d - 1
      have h := dfc_roll y (m-1) (by omega) (by omega)
      rw [show m - 1 + 1 = m from by omega] at h
      rw [hd1']
      omega
    · rw [if_neg hm2']
      have hm1' : m = 1 := by omega
      show daysFromCivil (y-1) 12 31 = daysFromCivil y m d - 1
      have h := dfc_dec (y-1)
      rw [show y - 1 + 1 = y from by omega] at h
      rw [hd1', hm1']
      omega

/-- Converting to UTC does not move the described instant: `t.UTC()` has
the same Unix seconds as `t`. -/
theorem unixOf_toUTC (t : GoTime) (h : Valid t) : unixOf (toUTC t) = unixOf t := by
  obtain ⟨hy1, hy2, hm1, hm2, hd1, hd2, hh, hmi, hs, hms, ho1, ho2⟩ := h
  have hprev := daysFromCivil_prevDay t.year t.month t.day hy1 hm1 hm2 hd1
  have hnext := daysFromCivil_nextDay t.year t.month t.day hm1 hm2 hd1 hd2
  simp only [toUTC]
  by_cases h0 : (t.hour : Int) * 60 + (t.minute : Int) - t.offMin < 0
  · rw [if_pos h0]
    simp only [unixOf]
    rw [hprev]
    omega
  · rw [if_neg h0]
    by_cases h1 : (t.hour : Int) * 60 + (t.minute : Int) - t.offMin < 1440
    · rw [if_pos h1]
      simp only [unixOf]
      omega
    · rw [if_neg h1]
      simp only [unixOf]
      rw [hnext]
      omega

end gotime


namespace gopath

theorem noSlash_append {a b : List Char} (ha : noSlash a) (hb : noSlash b) :
    noSlash (a ++ b) := by
  intro c hc
  rcases List.mem_append.mp hc with h | h
  · exact ha c h
  · exact hb c h

theorem noSlash_cons {c : Char} {l : List Char} (hc : c ≠ '/') (hl : noSlash l) :
    noSlash (c :: l) := by
  intro x hx
  rcases List.mem_cons.mp hx with h | h
  · exact h ▸ hc
  · exact hl x h

theorem noSlash_take {l : List Char} (h : noSlash l) (n : Nat) :
    noSlash (l.take n) := fun c hc => h c (List.take_subset n l hc)

theorem takeWhile_append_all (p : Char → Bool) (u v : List Char)
    (h : ∀ c ∈ u, p c = true) :
    (u ++ v).takeWhile p = u ++ v.takeWhile p := by
  induction u with
  | nil => simp
  | cons c u ih =>
    have hc := h c (by simp)
    simp only [List.cons_append, List.takeWhile_cons, hc, if_true]
    rw [ih (fun x hx => h x (by simp [hx]))]

theorem takeWhile_all (p : Char → Bool) (u : List Char)
    (h : ∀ c ∈ u, p c = true) : u.takeWhile p = u := by
  have := takeWhile_append_all p u [] h
  simpa using this

theorem dropTrailingSep_no_slash_end (w b : List Char) (hb : b ≠ [])
    (hbs : noSlash b) : dropTrailingSep (w ++ b) = w ++ b := by
  unfold dropTrailingSep
  rw [List.reverse_append]
  cases hb' : b.reverse with
  | nil => exact absurd (by simpa using hb') hb
  | cons x xs =>
    have hx : x ∈ b := by
      rw [← List.mem_reverse, hb']
      simp
    have hx' : ¬ (x = '/') := hbs x hx
    rw [List.cons_append, List.dropWhile_cons]
    simp only [decide_eq_true_eq, hx', if_false]
    rw [← List.cons_append, ← hb']
    simp

theorem afterLastSep_append_sep (w b : List Char) (hbs : noSlash b) :
    afterLastSep (w ++ '/' :: b) = b := by
  unfold afterLastSep
  rw [show w ++ '/' :: b = (w ++ ['/']) ++ b from by simp, List.reverse_append]
  rw [takeWhile_append_all _ _ _ (fun c hc => by
    simp only [decide_eq_true_eq]
    exact hbs c (List.mem_reverse.mp hc))]
  have hz : ((w ++ ['/']).reverse).takeWhile (fun x => decide (x ≠ '/')) = [] := by
    rw [List.reverse_append]
    simp [List.takeWhile_cons]
  rw [hz]
  simp

theorem afterLastSep_no_slash (b : List Char) (hbs : noSlash b) :
    afterLastSep b = b := by
  unfold afterLastSep
  rw [takeWhile_all _ _ (fun c hc => by
    simp only [decide_eq_true_eq]
    exact hbs c (List.mem_reverse.mp hc))]
  exact List.reverse_reverse b

theorem baseL_append_sep (w b : List Char) (hb0 : b ≠ []) (hbs : noSlash b) :
    baseL (w ++ '/' :: b) = b := by
  unfold baseL
  rw [if_neg (by simp)]
  simp only
  rw [show w ++ '/' :: b = (w ++ ['/']) ++ b from by simp,
    dropTrailingSep_no_slash_end _ _ hb0 hbs,
    show (w ++ ['/']) ++ b = w ++ '/' :: b from by simp,
    afterLastSep_append_sep w b hbs, if_neg hb0]

theorem baseL_no_slash (b : List Char) (hb0 : b ≠ []) (hbs : noSlash b) :
    baseL b = b := by
  unfold baseL
  rw [if_neg hb0]
  simp only
  rw [show b = [] ++ b from rfl, dropTrailingSep_no_slash_end [] b hb0 hbs]
  simp only [List.nil_append]
  rw [afterLastSep_no_slash b hbs, if_neg hb0]

end gopath

namespace gopath

theorem splitSegsAux_append_sep (u v acc : List Char) :
    splitSegsAux (u ++ '/' :: v) acc = splitSegsAux u acc ++ splitSegs v := by
  induction u generalizing acc with
  | nil =>
    simp [splitSegsAux, splitSegs]
  | cons c u ih =>
    by_cases hc : c = '/'
    · subst hc
      simp only [List.cons_append, splitSegsAux, List.append_eq, eq_self_iff_true,
        if_true, ih]
    · simp only [List.cons_append, splitSegsAux, List.append_eq, if_neg hc, ih]

theorem splitSegsAux_no_slash (v acc : List Char) (h : noSlash v) :
    splitSegsAux v acc = [acc.reverse ++ v] := by
  induction v generalizing acc with
  | nil => simp [splitSegsAux]
  | cons c v ih =>
    have hc : ¬ (c = '/') := h c (by simp)
    simp only [splitSegsAux, if_neg hc]
    rw [ih _ (fun x hx => h x (by simp [hx]))]
    simp

theorem splitSegs_no_slash (v : List Char) (h : noSlash v) :
    splitSegs v = [v] := by
  unfold splitSegs
  rw [splitSegsAux_no_slash v [] h]
  simp

theorem cleanStack_append (r : Bool) (S : List (List Char)) (l1 l2 : List (List Char)) :
    cleanStack r S (l1 ++ l2) = cleanStack r (cleanStack r S l1) l2 := by
  induction l1 generalizing S with
  | nil => simp [cleanStack]
  | cons seg rest ih =>
    by_cases h1 : seg = [] ∨ seg = ['.']
    · simp only [List.cons_append, cleanStack, if_pos h1]
      exact ih S
    · by_cases h2 : seg = ['.', '.']
      · cases S with
        | nil =>
          cases r with
          | true =>
            simp only [List.cons_append, cleanStack, if_neg h1, if_pos h2, if_pos rfl]
            exact ih []
          | false =>
            simp only [List.cons_append, cleanStack, if_neg h1, if_pos h2]
            simp only [Bool.false_eq_true, if_false]
            exact ih [['.', '.']]
        | cons top S' =>
          by_cases h3 : top = ['.', '.']
          · simp only [List.cons_append, cleanStack, if_neg h1, if_pos h2, if_pos h3]
            exact ih _
          · simp only [List.cons_append, cleanStack, if_neg h1, if_pos h2, if_neg h3]
            exact ih S'
      · simp only [List.cons_append, cleanStack, if_neg h1, if_neg h2]
        exact ih _

theorem cleanStack_single (r : Bool) (S : List (List Char)) (b : List Char)
    (h0 : b ≠ []) (h1 : b ≠ ['.']) (h2 : b ≠ ['.', '.']) :
    cleanStack r S [b] = b :: S := by
  have hor : ¬ (b = [] ∨ b = ['.']) := by
    rintro (h | h)
    · exact h0 h
    · exact h1 h
  simp only [cleanStack, if_neg hor, if_neg h2]

theorem intersperse_append_last (sep x : List Char) (l : List (List Char))
    (h : l ≠ []) :
    List.intersperse sep (l ++ [x]) = List.intersperse sep l ++ [sep, x] := by
  induction l with
  | nil => exact absurd rfl h
  | cons a l ih =>
    cases l with
    | nil => simp [List.intersperse]
    | cons a' l' =>
      rw [show (a :: a' :: l') ++ [x] = a :: a' :: (l' ++ [x]) from rfl,
        List.intersperse_cons_cons,
        show a' :: (l' ++ [x]) = (a' :: l') ++ [x] from rfl,
        ih (by simp), List.intersperse_cons_cons]
      simp

theorem baseL_renderClean (r : Bool) (S : List (List Char)) (b : List Char)
    (hb0 : b ≠ []) (hbs : noSlash b) :
    baseL (renderClean r (b :: S)) = b := by
  unfold renderClean
  cases S with
  | nil =>
    simp only [List.reverse_cons, List.reverse_nil, List.nil_append,
      List.intersperse_singleton, List.flatten_cons, List.flatten_nil, List.append_nil]
    cases r with
    | true =>
      simp only [if_pos rfl]
      exact baseL_append_sep [] b hb0 hbs
    | false =>
      simp only [Bool.false_eq_true, if_false, if_neg hb0]
      exact baseL_no_slash b hb0 hbs
  | cons s S' =>
    rw [List.reverse_cons, intersperse_append_last _ _ _ (by simp),
      show (List.intersperse ['/'] (s :: S').reverse) ++ [['/'], b]
        = (List.intersperse ['/'] (s :: S').reverse) ++ [['/']] ++ [b] from by simp,
      List.flatten_append, List.flatten_append]
    simp only [List.flatten_cons, List.flatten_nil, List.append_nil]
    cases r with
    | true =>
      simp only [if_pos rfl]
      rw [show '/' :: ((List.intersperse ['/'] (s :: S').reverse).flatten ++ ['/'] ++ b)
          = ('/' :: (List.intersperse ['/'] (s :: S').reverse).flatten) ++ '/' :: b from by simp]
      exact baseL_append_sep _ b hb0 hbs
    | false =>
      simp only [Bool.false_eq_true, if_false]
      rw [if_neg (by simp [hb0])]
      rw [show (List.intersperse ['/'] (s :: S').reverse).flatten ++ ['/'] ++ b
          = (List.intersperse ['/'] (s :: S').reverse).flatten ++ '/' :: b from by simp]
      exact baseL_append_sep _ b hb0 hbs

end gopath

namespace gopath

theorem cleanL_no_slash (b : List Char) (hbs : noSlash b) (h0 : b ≠ [])
    (h1 : b ≠ ['.']) (h2 : b ≠ ['.', '.']) : cleanL b = b := by
  cases b with
  | nil => exact absurd rfl h0
  | cons c rest =>
    have hc : ¬ (c = '/') := hbs c (by simp)
    show renderClean (decide (c = '/'))
        (cleanStack (decide (c = '/')) [] (splitSegs (c :: rest))) = c :: rest
    rw [splitSegs_no_slash _ hbs, cleanStack_single _ _ _ h0 h1 h2]
    unfold renderClean
    simp only [List.reverse_cons, List.reverse_nil, List.nil_append,
      List.intersperse_singleton, List.flatten_cons, List.flatten_nil, List.append_nil]
    rw [if_neg (by simp [hc]), if_neg h0]

theorem baseL_cleanL_append_seg (a b : List Char) (ha : a ≠ []) (hb0 : b ≠ [])
    (hbs : noSlash b) (hb1 : b ≠ ['.']) (hb2 : b ≠ ['.', '.']) :
    baseL (cleanL (a ++ '/' :: b)) = b := by
  cases a with
  | nil => exact absurd rfl ha
  | cons c a' =>
    have hsegs : splitSegs (c :: (a' ++ '/' :: b)) = splitSegs (c :: a') ++ [b] := by
      show splitSegs ((c :: a') ++ '/' :: b) = splitSegs (c :: a') ++ [b]
      unfold splitSegs
      rw [splitSegsAux_append_sep, splitSegs_no_slash _ hbs]
    show baseL (renderClean (decide (c = '/'))
        (cleanStack (decide (c = '/')) [] (splitSegs (c :: (a' ++ '/' :: b))))) = b
    rw [hsegs, cleanStack_append, cleanStack_single _ _ _ hb0 hb1 hb2]
    exact baseL_renderClean _ _ b hb0 hbs

theorem renderClean_ne_nil (r : Bool) (S : List (List Char)) :
    renderClean r S ≠ [] := by
  unfold renderClean
  cases r with
  | true => simp
  | false =>
    simp only [Bool.false_eq_true, if_false]
    split
    · simp
    · next h => exact h

theorem cleanL_ne_nil (l : List Char) : cleanL l ≠ [] := by
  cases l with
  | nil => simp [cleanL]
  | cons c rest => exact renderClean_ne_nil _ _

theorem extRevAux_suffix (r acc : List Char) :
    extRevAux r acc = [] ∨ ∃ u, r.reverse ++ acc = u ++ extRevAux r acc := by
  induction r generalizing acc with
  | nil => exact Or.inl rfl
  | cons c rest ih =>
    by_cases hc : c = '/'
    · left
      simp [extRevAux, hc]
    · by_cases hd : c = '.'
      · right
        refine ⟨rest.reverse, ?_⟩
        simp [extRevAux, hc, hd]
      · rcases ih (c :: acc) with h | ⟨u, hu⟩
        · left
          simpa [extRevAux, hc, hd] using h
        · right
          refine ⟨u, ?_⟩
          simp only [extRevAux, if_neg hc, if_neg hd]
          rw [← hu]
          simp

theorem noSlash_extL (l : List Char) (h : noSlash l) : noSlash (extL l) := by
  intro c hc
  rcases extRevAux_suffix l.reverse [] with he | ⟨u, hu⟩
  · unfold extL at hc
    rw [he] at hc
    simp at hc
  · unfold extL at hc
    rw [List.reverse_reverse, List.append_nil] at hu
    exact h c (by rw [hu]; exact List.mem_append.mpr (Or.inr hc))

theorem noSlash_baseL (l : List Char) (h : baseL l ≠ ['/']) : noSlash (baseL l) := by
  unfold baseL at h ⊢
  by_cases h0 : l = []
  · rw [if_pos h0]
    intro c hc
    simp at hc
    subst hc
    decide
  · rw [if_neg h0] at h ⊢
    simp only at h ⊢
    by_cases h2 : afterLastSep (dropTrailingSep l) = []
    · rw [if_pos h2] at h
      exact absurd rfl h
    · rw [if_neg h2]
      intro c hc
      unfold afterLastSep at hc
      rw [List.mem_reverse] at hc
      have := List.mem_takeWhile_imp hc
      simpa using this

theorem baseL_joinL (dir b : List Char) (hbs : noSlash b) (hlen : 3 ≤ b.length) :
    baseL (joinL dir b) = b := by
  have h0 : b ≠ [] := by
    intro h
    rw [h] at hlen
    simp at hlen
  have h1 : b ≠ ['.'] := by
    intro h
    rw [h] at hlen
    simp at hlen
  have h2 : b ≠ ['.', '.'] := by
    intro h
    rw [h] at hlen
    simp at hlen
  unfold joinL
  by_cases ha : dir = []
  · rw [if_pos ha, if_neg h0, cleanL_no_slash b hbs h0 h1 h2]
    exact baseL_no_slash b h0 hbs
  · rw [if_neg ha]
    exact baseL_cleanL_append_seg dir b ha h0 hbs h1 h2

end gopath

namespace gotime

theorem digitChar_ne_slash (d : Nat) : digitChar d ≠ '/' := by
  unfold digitChar
  have h : d % 10 < 10 := Nat.mod_lt _ (by norm_num)
  set k := d % 10 with hk
  interval_cases k <;> decide

theorem noSlash_pad2 (x : Nat) : gopath.noSlash (pad2 x) := by
  intro c hc
  simp only [pad2, List.mem_cons, List.not_mem_nil, or_false] at hc
  rcases hc with h | h <;> exact h ▸ digitChar_ne_slash _

theorem noSlash_pad3 (x : Nat) : gopath.noSlash (pad3 x) := by
  intro c hc
  simp only [pad3, List.mem_cons, List.not_mem_nil, or_false] at hc
  rcases hc with h | h | h <;> exact h ▸ digitChar_ne_slash _

theorem noSlash_pad4 (x : Nat) : gopath.noSlash (pad4 x) := by
  intro c hc
  simp only [pad4, List.mem_cons, List.not_mem_nil, or_false] at hc
  rcases hc with h | h | h | h <;> exact h ▸ digitChar_ne_slash _

theorem noSlash_formatZone (off : Int) : gopath.noSlash (formatZone off) := by
  unfold formatZone
  by_cases h0 : off = 0
  · rw [if_pos h0]
    intro c hc
    simp only [List.mem_singleton] at hc
    subst hc
    decide
  · rw [if_neg h0]
    by_cases hn : off < 0
    · rw [if_pos hn]
      exact gopath.noSlash_cons (by decide)
        (gopath.noSlash_append (noSlash_pad2 _) (noSlash_pad2 _))
    · rw [if_neg hn]
      exact gopath.noSlash_cons (by decide)
        (gopath.noSlash_append (noSlash_pad2 _) (noSlash_pad2 _))

theorem noSlash_formatBackupTime (t : GoTime) :
    gopath.noSlash (formatBackupTime t) := by
  unfold formatBackupTime
  exact gopath.noSlash_append (gopath.noSlash_append (gopath.noSlash_append
    (gopath.noSlash_append (gopath.noSlash_append (gopath.noSlash_append
      (gopath.noSlash_append (noSlash_pad4 _)
        (gopath.noSlash_cons (by decide) (noSlash_pad2 _)))
      (gopath.noSlash_cons (by decide) (noSlash_pad2 _)))
      (gopath.noSlash_cons (by decide) (noSlash_pad2 _)))
      (gopath.noSlash_cons (by decide) (noSlash_pad2 _)))
      (gopath.noSlash_cons (by decide) (noSlash_pad2 _)))
      (gopath.noSlash_cons (by decide) (noSlash_pad3 _)))
    (noSlash_formatZone _)

theorem formatZone_length (off : Int) : 1 ≤ (formatZone off).length := by
  unfold formatZone
  by_cases h0 : off = 0
  · rw [if_pos h0]
    simp
  · rw [if_neg h0]
    simp [pad2]

theorem formatBackupTime_length (t : GoTime) :
    24 ≤ (formatBackupTime t).length := by
  unfold formatBackupTime
  have := formatZone_length t.offMin
  simp only [List.length_append, List.length_cons, pad4, pad3, pad2,
    List.length_nil]
  omega

theorem daysInMonth_pos (y m : Nat) : 1 ≤ daysInMonth y m := by
  unfold daysInMonth
  split
  · split <;> omega
  · split <;> omega

theorem prevDay_valid (y m d : Nat) (hy1 : 1 ≤ y) (hm1 : 1 ≤ m) (hm2 : m ≤ 12)
    (hd1 : 1 ≤ d) (hd2 : d ≤ daysInMonth y m) :
    (prevDay y m d).1 ≤ y ∧ 1 ≤ (prevDay y m d).2.1 ∧ (prevDay y m d).2.1 ≤ 12 ∧
    1 ≤ (prevDay y m d).2.2 ∧
    (prevDay y m d).2.2 ≤ daysInMonth (prevDay y m d).1 (prevDay y m d).2.1 := by
  unfold prevDay
  by_cases h1 : 1 < d
  · rw [if_pos h1]
    exact ⟨le_refl y, hm1, hm2, (by omega : 1 ≤ d - 1),
      (by omega : d - 1 ≤ daysInMonth y m)⟩
  · rw [if_neg h1]
    by_cases h2 : 1 < m
    · rw [if_pos h2]
      exact ⟨le_refl y, (by omega : 1 ≤ m - 1), (by omega : m - 1 ≤ 12),
        daysInMonth_pos y (m-1), le_refl (daysInMonth y (m-1))⟩
    · rw [if_neg h2]
      exact ⟨(by omega : y - 1 ≤ y), (by norm_num : (1:Nat) ≤ 12),
        le_refl 12, (by norm_num : (1:Nat) ≤ 31),
        (by simp [daysInMonth] : (31:Nat) ≤ daysInMonth (y-1) 12)⟩

theorem nextDay_valid (y m d : Nat) (hm1 : 1 ≤ m) (hm2 : m ≤ 12)
    (hd1 : 1 ≤ d) (hd2 : d ≤ daysInMonth y m) :
    (nextDay y m d).1 ≤ y + 1 ∧ 1 ≤ (nextDay y m d).2.1 ∧ (nextDay y m d).2.1 ≤ 12 ∧
    1 ≤ (nextDay y m d).2.2 ∧
    (nextDay y m d).2.2 ≤ daysInMonth (nextDay y m d).1 (nextDay y m d).2.1 := by
  unfold nextDay
  by_cases h1 : d < daysInMonth y m
  · rw [if_pos h1]
    exact ⟨(by omega : y ≤ y + 1), hm1, hm2, (by omega : 1 ≤ d + 1),
      (by omega : d + 1 ≤ daysInMonth y m)⟩
  · rw [if_neg h1]
    by_cases h2 : m < 12
    · rw [if_pos h2]
      exact ⟨(by omega : y ≤ y + 1), (by omega : 1 ≤ m + 1),
        (by omega : m + 1 ≤ 12), le_refl 1, daysInMonth_pos y (m+1)⟩
    · rw [if_neg h2]
      exact ⟨le_refl (y+1), le_refl 1, (by norm_num : (1:Nat) ≤ 12),
        le_refl 1, daysInMonth_pos (y+1) 1⟩

theorem toUTC_bounds (t : GoTime) (h : Valid t) :
    (toUTC t).year ≤ 9999 ∧ 1 ≤ (toUTC t).month ∧ (toUTC t).month ≤ 12 ∧
    1 ≤ (toUTC t).day ∧ (toUTC t).day ≤ daysInMonth (toUTC t).year (toUTC t).month ∧
    (toUTC t).hour ≤ 23 ∧ (toUTC t).minute ≤ 59 ∧ (toUTC t).sec ≤ 59 ∧
    (toUTC t).millis ≤ 999 ∧ (toUTC t).offMin = 0 := by
  obtain ⟨hy1, hy2, hm1, hm2, hd1, hd2, hh, hmi, hs, hms, ho1, ho2⟩ := h
  have hprev := prevDay_valid t.year t.month t.day hy1 hm1 hm2 hd1 hd2
  have hnext := nextDay_valid t.year t.month t.day hm1 hm2 hd1 hd2
  simp only [toUTC]
  by_cases h0 : (t.hour : Int) * 60 + (t.minute : Int) - t.offMin < 0
  · rw [if_pos h0]
    have hh1 : (((t.hour : Int) * 60 + (t.minute : Int) - t.offMin + 1440).toNat) / 60 ≤ 23 := by
      omega
    have hh2 : (((t.hour : Int) * 60 + (t.minute : Int) - t.offMin + 1440).toNat) % 60 ≤ 59 := by
      omega
    exact ⟨le_trans hprev.1 (by omega), hprev.2.1, hprev.2.2.1, hprev.2.2.2.1,
      hprev.2.2.2.2, hh1, hh2, hs, hms, rfl⟩
  · rw [if_neg h0]
    by_cases h1 : (t.hour : Int) * 60 + (t.minute : Int) - t.offMin < 1440
    · rw [if_pos h1]
      have hh1 : (((t.hour : Int) * 60 + (t.minute : Int) - t.offMin).toNat) / 60 ≤ 23 := by
        omega
      have hh2 : (((t.hour : Int) * 60 + (t.minute : Int) - t.offMin).toNat) % 60 ≤ 59 := by
        omega
      exact ⟨le_trans hy2 (by norm_num), hm1, hm2, hd1, hd2, hh1, hh2, hs, hms, rfl⟩
    · rw [if_neg h1]
      have hh1 : (((t.hour : Int) * 60 + (t.minute : Int) - t.offMin - 1440).toNat) / 60 ≤ 23 := by
        omega
      have hh2 : (((t.hour : Int) * 60 + (t.minute : Int) - t.offMin - 1440).toNat) % 60 ≤ 59 := by
        omega
      exact ⟨le_trans hnext.1 (by omega), hnext.2.1, hnext.2.2.1, hnext.2.2.2.1,
        hnext.2.2.2.2, hh1, hh2, hs, hms, rfl⟩

end gotime

/-- The scan of `parseTime` applied to the exact path that `makeBackupFP`
builds: stripping the prefix and extension recovers the embedded timestamp,
which parses back to the stamped time. -/
theorem parseTime_roundtrip_aux (outputPath : String) (t' : gotime.GoTime)
    (hbase : gopath.baseL outputPath.data ≠ ['/'])
    (hts : gotime.parseBackupTime (gotime.formatBackupTime t') = some t') :
    zaproll.parseTime
        (String.mk (gopath.joinL (gopath.dirL outputPath.data)
          (List.take ((gopath.baseL outputPath.data).length
              - (gopath.extL (gopath.baseL outputPath.data)).length)
              (gopath.baseL outputPath.data)
            ++ '-' :: (gotime.formatBackupTime t'
              ++ gopath.extL (gopath.baseL outputPath.data)))))
        (zaproll.getPrefixAndExt outputPath).1
        (zaproll.getPrefixAndExt outputPath).2
      = gotime.unixOf t' := by
  have hfn_ns : gopath.noSlash (gopath.baseL outputPath.data) :=
    gopath.noSlash_baseL _ hbase
  have hdata : ∀ l : List Char, (String.mk l).data = l := fun _ => rfl
  simp only [zaproll.getPrefixAndExt, zaproll.parseTime, hdata]
  set fn := gopath.baseL outputPath.data with hfn
  set ext := gopath.extL fn with hext
  set pre' := List.take (fn.length - ext.length) fn with hpre'
  set ts := gotime.formatBackupTime t' with hts2
  have hts_ns : gopath.noSlash ts := gotime.noSlash_formatBackupTime _
  have hext_ns : gopath.noSlash ext := gopath.noSlash_extL fn hfn_ns
  have hpre_ns : gopath.noSlash pre' := gopath.noSlash_take hfn_ns _
  have hb_ns : gopath.noSlash (pre' ++ '-' :: (ts ++ ext)) :=
    gopath.noSlash_append hpre_ns
      (gopath.noSlash_cons (by decide) (gopath.noSlash_append hts_ns hext_ns))
  have hts_len := gotime.formatBackupTime_length t'
  have hb_len : 3 ≤ (pre' ++ '-' :: (ts ++ ext)).length := by
    rw [← hts2] at hts_len
    simp only [List.length_append, List.length_cons]
    omega
  have hjoin := gopath.baseL_joinL (gopath.dirL outputPath.data)
    (pre' ++ '-' :: (ts ++ ext)) hb_ns hb_len
  rw [hjoin]
  have hbeq : pre' ++ '-' :: (ts ++ ext) = (pre' ++ ['-']) ++ (ts ++ ext) := by
    simp
  have hpre : ((pre' ++ ['-']).isPrefixOf (pre' ++ '-' :: (ts ++ ext))) = true := by
    rw [hbeq]
    simp
  have hsuf : (ext.isSuffixOf (pre' ++ '-' :: (ts ++ ext))) = true := by
    rw [List.isSuffixOf_iff_suffix]
    exact ⟨pre' ++ '-' :: ts, by simp⟩
  rw [if_neg (not_not_intro hpre), if_neg (not_not_intro hsuf)]
  have hdrop : List.drop ((pre' ++ ['-']).length) (pre' ++ '-' :: (ts ++ ext))
      = ts ++ ext := by
    rw [hbeq]
    exact List.drop_left _ _
  have hlen2 : (pre' ++ '-' :: (ts ++ ext)).length - ext.length
      - (pre' ++ ['-']).length = ts.length := by
    simp only [List.length_append, List.length_cons, List.length_nil]
    omega
  rw [hdrop, hlen2, List.take_left, hts]

/-- C8: `makeBackupFP` names the backup `<prefix><timestamp><ext>` (with
`prefix` ending in `-`) from the output path's base name, and `parseTime`
applied to that generated path with `getPrefixAndExt`'s prefix and extension
recovers exactly the stamped time's Unix seconds, which equal `t.Unix()`.
Amended: this requires the output path's base name not to be `/` (an
all-slash output path); for such a path the generated name drops the
slash prefix and `parseTime` returns 0. -/
theorem C8_backup_name_roundtrip (outputPath : String) (localTime : Bool) (t : gotime.GoTime)
    (hv : gotime.Valid t)
    (hbase : gopath.baseL outputPath.data ≠ ['/']) :
    zaproll.parseTime (zaproll.makeBackupFP outputPath localTime t).1
        (zaproll.getPrefixAndExt outputPath).1
        (zaproll.getPrefixAndExt outputPath).2
      = gotime.unixOf t
    ∧ (zaproll.makeBackupFP outputPath localTime t).2 = gotime.unixOf t := by
  have hv' := hv
  obtain ⟨hy1, hy2, hm1, hm2, hd1, hd2, hh, hmi, hs, hms, ho1, ho2⟩ := hv'
  cases localTime with
  | true =>
    have hts : gotime.parseBackupTime (gotime.formatBackupTime t) = some t :=
      gotime.parse_format t (le_trans hy2 (by norm_num)) hm1 hm2 hd1 hd2
        hh hmi hs hms ho1 ho2
    have haux := parseTime_roundtrip_aux outputPath t hbase hts
    simp only [zaproll.makeBackupFP, eq_self_iff_true, if_true]
    exact ⟨haux, trivial⟩
  | false =>
    have hbnd := gotime.toUTC_bounds t hv
    obtain ⟨q1, q2, q3, q4, q5, q6, q7, q8, q9, q10⟩ := hbnd
    have hts : gotime.parseBackupTime (gotime.formatBackupTime (gotime.toUTC t))
        = some (gotime.toUTC t) :=
      gotime.parse_format _ q1 q2 q3 q4 q5 q6 q7 q8 q9
        (by rw [q10]; norm_num) (by rw [q10]; norm_num)
    have hunix : gotime.unixOf (gotime.toUTC t) = gotime.unixOf t :=
      gotime.unixOf_toUTC t hv
    have haux := parseTime_roundtrip_aux outputPath (gotime.toUTC t) hbase hts
    simp only [zaproll.makeBackupFP, Bool.false_eq_true, if_false]
    exact ⟨haux.trans hunix, hunix⟩

/-- C8 witness: a concrete valid time and output path satisfying the
roundtrip theorem's hypotheses. -/
theorem C8_backup_name_roundtrip_witness :
    gotime.Valid ⟨2020, 1, 2, 3, 4, 5, 6, 0⟩
    ∧ gopath.baseL (String.mk ['x', '.', 'l', 'o', 'g']).data ≠ ['/']
    ∧ (zaproll.parseTime
        (zaproll.makeBackupFP (String.mk ['x', '.', 'l', 'o', 'g']) false
          ⟨2020, 1, 2, 3, 4, 5, 6, 0⟩).1
        (zaproll.getPrefixAndExt (String.mk ['x', '.', 'l', 'o', 'g'])).1
        (zaproll.getPrefixAndExt (String.mk ['x', '.', 'l', 'o', 'g'])).2
        = gotime.unixOf ⟨2020, 1, 2, 3, 4, 5, 6, 0⟩
      ∧ (zaproll.makeBackupFP (String.mk ['x', '.', 'l', 'o', 'g']) false
          ⟨2020, 1, 2, 3, 4, 5, 6, 0⟩).2
        = gotime.unixOf ⟨2020, 1, 2, 3, 4, 5, 6, 0⟩) :=
  ⟨by decide, by decide, C8_backup_name_roundtrip _ false _ (by decide) (by decide)⟩

/-- C8 counterexample to the unamended claim: with the all-slash output
path `/` the cleaned backup path loses the `/` prefix that
`getPrefixAndExt` derives, so `parseTime` rejects the generated name and
returns 0 instead of the stamped time. -/
theorem C8_counterexample :
    zaproll.parseTime
        (zaproll.makeBackupFP (String.mk ['/']) true ⟨2020, 1, 2, 3, 4, 5, 6, 0⟩).1
        (zaproll.getPrefixAndExt (String.mk ['/'])).1
        (zaproll.getPrefixAndExt (String.mk ['/'])).2
      ≠ gotime.unixOf ⟨2020, 1, 2, 3, 4, 5, 6, 0⟩ := by decide


namespace zaproll

theorem swapL_length (l : List Backup) (i j : Nat) :
    (swapL l i j).length = l.length := by
  simp [swapL]

theorem getD_mem (l : List Backup) (k : Nat) (h : k < l.length) :
    l.getD k default ∈ l := by
  rw [List.getD_eq_getElem?_getD, List.getElem?_eq_getElem h]
  exact List.getElem_mem h

theorem getD_eq_getElem (l : List Backup) (k : Nat) (h : k < l.length) :
    l.getD k default = l[k] := by
  rw [List.getD_eq_getElem?_getD, List.getElem?_eq_getElem h]
  rfl

theorem swapL_getD_fst (l : List Backup) (i j : Nat) (hi : i < l.length)
    (hne : i ≠ j) :
    (swapL l i j).getD i default = l.getD j default := by
  unfold swapL
  rw [List.getD_eq_getElem?_getD,
    List.getElem?_set_ne (fun h => hne h.symm),
    List.getElem?_set_self (by simpa using hi)]
  rfl

theorem swapL_getD_snd (l : List Backup) (i j : Nat) (hj : j < l.length)
    (hi : i < l.length) :
    (swapL l i j).getD j default = l.getD i default := by
  unfold swapL
  rw [List.getD_eq_getElem?_getD,
    List.getElem?_set_self (by simpa using hj)]
  rfl

theorem swapL_getD_other (l : List Backup) (i j k : Nat) (hki : k ≠ i)
    (hkj : k ≠ j) :
    (swapL l i j).getD k default = l.getD k default := by
  unfold swapL
  rw [List.getD_eq_getElem?_getD,
    List.getElem?_set_ne (fun h => hkj h.symm),
    List.getElem?_set_ne (fun h => hki h.symm),
    ← List.getD_eq_getElem?_getD]

theorem mem_swapL (l : List Backup) (i j : Nat) (x : Backup)
    (hi : i < l.length) (hj : j < l.length) (h : x ∈ swapL l i j) : x ∈ l := by
  unfold swapL at h
  rcases List.mem_or_eq_of_mem_set h with h2 | h2
  · rcases List.mem_or_eq_of_mem_set h2 with h3 | h3
    · exact h3
    · exact h3 ▸ getD_mem l j hj
  · exact h2 ▸ getD_mem l i hi

end zaproll

namespace zaproll

theorem heapUp_length (j : Nat) : ∀ l : List Backup,
    (heapUp l j).length = l.length := by
  induction j using Nat.strong_induction_on with
  | _ j ih =>
    intro l
    unfold heapUp
    by_cases h0 : j = 0
    · rw [dif_pos h0]
    · rw [dif_neg h0]
      by_cases hlt : (l.getD j default).ts < (l.getD ((j-1)/2) default).ts
      · rw [if_pos hlt, ih _ (by omega), swapL_length]
      · rw [if_neg hlt]

theorem mem_heapUp (j : Nat) : ∀ (l : List Backup) (x : Backup),
    j < l.length → x ∈ heapUp l j → x ∈ l := by
  induction j using Nat.strong_induction_on with
  | _ j ih =>
    intro l x hj h
    unfold heapUp at h
    by_cases h0 : j = 0
    · rw [dif_pos h0] at h
      exact h
    · rw [dif_neg h0] at h
      by_cases hlt : (l.getD j default).ts < (l.getD ((j-1)/2) default).ts
      · rw [if_pos hlt] at h
        have h2 := ih _ (by omega) (swapL l ((j-1)/2) j) x
          (by rw [swapL_length]; omega) h
        exact mem_swapL l _ _ x (by omega) hj h2
      · rw [if_neg hlt] at h
        exact h

end zaproll

namespace zaproll

theorem heapUp_isHeap (j : Nat) : ∀ l : List Backup, j < l.length →
    (∀ k < l.length, 0 < k → k ≠ j →
      (l.getD ((k-1)/2) default).ts ≤ (l.getD k default).ts) →
    (0 < j → ∀ c < l.length, 0 < c → (c-1)/2 = j →
      (l.getD ((j-1)/2) default).ts ≤ (l.getD c default).ts) →
    IsHeap (heapUp l j) := by
  induction j using Nat.strong_induction_on with
  | _ j ih =>
    intro l hj h1 h2
    unfold heapUp
    by_cases h0 : j = 0
    · rw [dif_pos h0]
      intro k hk hk0
      exact h1 k hk hk0 (by omega)
    · rw [dif_neg h0]
      by_cases hlt : (l.getD j default).ts < (l.getD ((j-1)/2) default).ts
      · rw [if_pos hlt]
        apply ih ((j-1)/2) (by omega) (swapL l ((j-1)/2) j)
          (by rw [swapL_length]; omega)
        · intro k hk hk0 hki
          rw [swapL_length] at hk
          by_cases hkj : k = j
          · subst hkj
            rw [swapL_getD_snd l ((k-1)/2) k (by omega) (by omega),
              swapL_getD_fst l ((k-1)/2) k (by omega) (by omega)]
            exact le_of_lt hlt
          · by_cases hpj : (k-1)/2 = j
            · rw [hpj, swapL_getD_snd l ((j-1)/2) j (by omega) (by omega),
                swapL_getD_other l ((j-1)/2) j k hki hkj]
              exact h2 (by omega) k hk hk0 hpj
            · by_cases hpi : (k-1)/2 = (j-1)/2
              · rw [hpi, swapL_getD_fst l ((j-1)/2) j (by omega) (by omega),
                  swapL_getD_other l ((j-1)/2) j k hki hkj]
                have hb := h1 k (by omega) hk0 hkj
                rw [hpi] at hb
                exact le_trans (le_of_lt hlt) hb
              · rw [swapL_getD_other l ((j-1)/2) j _ hpi hpj,
                  swapL_getD_other l ((j-1)/2) j k hki hkj]
                exact h1 k (by omega) hk0 hkj
        · intro hi0 c hc hc0 hpc
          rw [swapL_length] at hc
          rw [swapL_getD_other l ((j-1)/2) j (((j-1)/2 - 1)/2) (by omega) (by omega)]
          by_cases hcj : c = j
          · subst hcj
            rw [swapL_getD_snd l ((c-1)/2) c (by omega) (by omega)]
            exact h1 ((c-1)/2) (by omega) hi0 (by omega)
          · rw [swapL_getD_other l ((j-1)/2) j c (by omega) hcj]
            have ha := h1 ((j-1)/2) (by omega) hi0 (by omega)
            have hb := h1 c (by omega) hc0 hcj
            rw [hpc] at hb
            exact le_trans ha hb
      · rw [if_neg hlt]
        intro k hk hk0
        by_cases hkj : k = j
        · subst hkj
          exact not_lt.mp hlt
        · exact h1 k hk hk0 hkj

end zaproll

namespace zaproll

theorem downChild_bounds (l : List Backup) (i n : Nat) (h : 2*i+1 < n) :
    i < downChild l i n ∧ downChild l i n < n := by
  unfold downChild
  split <;> omega

theorem downChild_le (l : List Backup) (i n c : Nat) (h : 2*i+1 < n)
    (hc1 : c = 2*i+1 ∨ c = 2*i+2) (hc2 : c < n) :
    (l.getD (downChild l i n) default).ts ≤ (l.getD c default).ts := by
  unfold downChild
  rcases hc1 with h1 | h1 <;> subst h1 <;> split <;> omega

theorem heapDown_length (m : Nat) : ∀ (l : List Backup) (i n : Nat), n - i = m →
    (heapDown l i n).length = l.length := by
  induction m using Nat.strong_induction_on with
  | _ m ih =>
    intro l i n hm
    unfold heapDown
    by_cases h0 : 2*i+1 ≥ n
    · rw [dif_pos h0]
    · rw [dif_neg h0]
      by_cases hlt : (l.getD (downChild l i n) default).ts < (l.getD i default).ts
      · have hb := downChild_bounds l i n (by omega)
        rw [if_pos hlt, ih (n - downChild l i n) (by omega) _ _ _ rfl, swapL_length]
      · rw [if_neg hlt]

theorem mem_heapDown (m : Nat) : ∀ (l : List Backup) (i n : Nat) (x : Backup),
    n - i = m → n ≤ l.length → x ∈ heapDown l i n → x ∈ l := by
  induction m using Nat.strong_induction_on with
  | _ m ih =>
    intro l i n x hm hn h
    unfold heapDown at h
    by_cases h0 : 2*i+1 ≥ n
    · rw [dif_pos h0] at h
      exact h
    · rw [dif_neg h0] at h
      by_cases hlt : (l.getD (downChild l i n) default).ts < (l.getD i default).ts
      · rw [if_pos hlt] at h
        have hb := downChild_bounds l i n (by omega)
        have h2 := ih (n - downChild l i n) (by omega) _ _ n x rfl
          (by rw [swapL_length]; omega) h
        exact mem_swapL l _ _ x (by omega) (by omega) h2
      · rw [if_neg hlt] at h
        exact h

theorem heapDown_getD_ge (m : Nat) : ∀ (l : List Backup) (i n k : Nat),
    n - i = m → n ≤ k →
    (heapDown l i n).getD k default = l.getD k default := by
  induction m using Nat.strong_induction_on with
  | _ m ih =>
    intro l i n k hm hk
    unfold heapDown
    by_cases h0 : 2*i+1 ≥ n
    · rw [dif_pos h0]
    · rw [dif_neg h0]
      by_cases hlt : (l.getD (downChild l i n) default).ts < (l.getD i default).ts
      · have hb := downChild_bounds l i n (by omega)
        rw [if_pos hlt, ih (n - downChild l i n) (by omega) _ _ _ _ rfl hk,
          swapL_getD_other l i (downChild l i n) k (by omega) (by omega)]
      · rw [if_neg hlt]

end zaproll

namespace zaproll

theorem downChild_cases (l : List Backup) (i n : Nat) :
    downChild l i n = 2*i+1 ∨ downChild l i n = 2*i+2 := by
  unfold downChild
  split
  · right
    rfl
  · left
    rfl

theorem heapDown_isHeap (m : Nat) : ∀ (l : List Backup) (i n : Nat), n - i = m →
    n ≤ l.length →
    (∀ k < n, 0 < k → (k-1)/2 ≠ i →
      (l.getD ((k-1)/2) default).ts ≤ (l.getD k default).ts) →
    (∀ k < n, 0 < k → (k-1)/2 = i → 0 < i →
      (l.getD ((i-1)/2) default).ts ≤ (l.getD k default).ts) →
    ∀ k < n, 0 < k →
      ((heapDown l i n).getD ((k-1)/2) default).ts
        ≤ ((heapDown l i n).getD k default).ts := by
  induction m using Nat.strong_induction_on with
  | _ m ih =>
    intro l i n hm hn h1 h2
    unfold heapDown
    by_cases h0 : 2*i+1 ≥ n
    · rw [dif_pos h0]
      intro k hk hk0
      exact h1 k hk hk0 (by omega)
    · rw [dif_neg h0]
      have hdc := downChild_cases l i n
      have hb := downChild_bounds l i n (by omega)
      by_cases hlt : (l.getD (downChild l i n) default).ts < (l.getD i default).ts
      · rw [if_pos hlt]
        have hpar : (downChild l i n - 1) / 2 = i := by omega
        apply ih (n - downChild l i n) (by omega) _ _ n rfl
          (by rw [swapL_length]; omega)
        · intro k hk hk0 hkj
          by_cases hkj2 : k = downChild l i n
          · rw [hkj2, hpar, swapL_getD_fst l i (downChild l i n) (by omega) (by omega),
              swapL_getD_snd l i (downChild l i n) (by omega) (by omega)]
            exact le_of_lt hlt
          · by_cases hki : k = i
            · rw [hki, swapL_getD_other l i (downChild l i n) ((i-1)/2) (by omega) (by omega),
                swapL_getD_fst l i (downChild l i n) (by omega) (by omega)]
              exact h2 (downChild l i n) (by omega) (by omega) hpar (by omega)
            · by_cases hpi : (k-1)/2 = i
              · rw [hpi, swapL_getD_fst l i (downChild l i n) (by omega) (by omega),
                  swapL_getD_other l i (downChild l i n) k hki hkj2]
                exact downChild_le l i n k (by omega) (by omega) hk
              · rw [swapL_getD_other l i (downChild l i n) ((k-1)/2) hpi hkj,
                  swapL_getD_other l i (downChild l i n) k hki hkj2]
                exact h1 k hk hk0 hpi
        · intro k hk hk0 hpk hj0
          rw [hpar, swapL_getD_fst l i (downChild l i n) (by omega) (by omega),
            swapL_getD_other l i (downChild l i n) k (by omega) (by omega)]
          have hres := h1 k hk hk0 (by omega)
          rw [hpk] at hres
          exact hres
      · rw [if_neg hlt]
        intro k hk hk0
        by_cases hpi : (k-1)/2 = i
        · rw [hpi]
          have hc := downChild_le l i n k (by omega) (by omega) hk
          omega
        · exact h1 k hk hk0 hpi

end zaproll

namespace zaproll

theorem isHeap_root_le (l : List Backup) (h : IsHeap l) (k : Nat) :
    k < l.length → (l.getD 0 default).ts ≤ (l.getD k default).ts := by
  induction k using Nat.strong_induction_on with
  | _ k ih =>
    intro hk
    by_cases h0 : k = 0
    · subst h0
      exact le_refl _
    · exact le_trans (ih ((k-1)/2) (by omega) (by omega)) (h k hk (by omega))

theorem isHeap_root_min (l : List Backup) (h : IsHeap l) (x : Backup)
    (hx : x ∈ l) : (l.getD 0 default).ts ≤ x.ts := by
  rcases List.mem_iff_getElem.mp hx with ⟨k, hk, hkx⟩
  have := isHeap_root_le l h k hk
  rw [getD_eq_getElem l k hk, hkx] at this
  exact this

theorem heapPop_eq (l : List Backup) (hne : l ≠ []) :
    heapPop l =
      (some ((heapDown (swapL l 0 (l.length - 1)) 0 (l.length - 1)).getD
          (l.length - 1) default),
        (heapDown (swapL l 0 (l.length - 1)) 0 (l.length - 1)).take
          (l.length - 1)) := by
  cases l with
  | nil => exact absurd rfl hne
  | cons a as => rfl

theorem heapPush_length (l : List Backup) (x : Backup) :
    (heapPush l x).length = l.length + 1 := by
  unfold heapPush
  rw [heapUp_length]
  simp

theorem mem_heapPush (l : List Backup) (x y : Backup) (h : y ∈ heapPush l x) :
    y ∈ l ∨ y = x := by
  unfold heapPush at h
  have h2 := mem_heapUp l.length (l ++ [x]) y (by simp) h
  simpa using h2

theorem getD_append_lt (l l2 : List Backup) (k : Nat) (h : k < l.length) :
    (l ++ l2).getD k default = l.getD k default := by
  rw [List.getD_eq_getElem?_getD, List.getD_eq_getElem?_getD,
    List.getElem?_append_left h]

theorem heapPush_isHeap (l : List Backup) (x : Backup) (h : IsHeap l) :
    IsHeap (heapPush l x) := by
  unfold heapPush
  apply heapUp_isHeap l.length (l ++ [x]) (by simp)
  · intro k hk hk0 hkj
    simp only [List.length_append, List.length_cons, List.length_nil] at hk
    rw [getD_append_lt l [x] k (by omega),
      getD_append_lt l [x] ((k-1)/2) (by omega)]
    exact h k (by omega) hk0
  · intro hl0 c hc hc0 hpc
    simp only [List.length_append, List.length_cons, List.length_nil] at hc
    omega

end zaproll

namespace zaproll

theorem getD_take (l : List Backup) (n k : Nat) (h : k < n) :
    (l.take n).getD k default = l.getD k default := by
  rw [List.getD_eq_getElem?_getD, List.getD_eq_getElem?_getD,
    List.getElem?_take_of_lt h]

theorem heapPop_spec (l : List Backup) (hne : l ≠ []) (h : IsHeap l) :
    (heapPop l).1 = some (l.getD 0 default)
    ∧ (heapPop l).2.length = l.length - 1
    ∧ IsHeap (heapPop l).2
    ∧ (∀ x ∈ (heapPop l).2, x ∈ l) := by
  have hlen : 0 < l.length := List.length_pos.mpr hne
  rw [heapPop_eq l hne]
  have hswl : (swapL l 0 (l.length - 1)).length = l.length := swapL_length _ _ _
  have hdl : (heapDown (swapL l 0 (l.length - 1)) 0 (l.length - 1)).length
      = l.length := by
    rw [heapDown_length (l.length - 1 - 0) _ _ _ rfl, hswl]
  refine ⟨?_, ?_, ?_, ?_⟩
  · simp only
    rw [heapDown_getD_ge (l.length - 1 - 0) _ _ _ _ rfl (le_refl _),
      swapL_getD_snd l 0 (l.length - 1) (by omega) (by omega)]
  · simp only [List.length_take, hdl]
    omega
  · have hpre := heapDown_isHeap (l.length - 1 - 0) (swapL l 0 (l.length - 1))
      0 (l.length - 1) rfl (by omega)
      (fun k hk hk0 hki => by
        rw [swapL_getD_other l 0 (l.length - 1) k (by omega) (by omega),
          swapL_getD_other l 0 (l.length - 1) ((k-1)/2) hki (by omega)]
        exact h k (by omega) hk0)
      (fun k hk hk0 hki hi0 => by omega)
    intro k hk hk0
    simp only [List.length_take, hdl] at hk
    rw [getD_take _ _ k (by omega), getD_take _ _ ((k-1)/2) (by omega)]
    exact hpre k (by omega) hk0
  · intro x hx
    simp only at hx
    have hx2 := List.take_subset _ _ hx
    have hx3 := mem_heapDown (l.length - 1 - 0) _ _ _ x rfl (by omega) hx2
    exact mem_swapL l 0 (l.length - 1) x (by omega) (by omega) hx3

end zaproll

namespace zaproll

theorem evictLoop_spec (fuel : Nat) : ∀ (b : List Backup) (max : Nat),
    IsHeap b → b.length ≤ fuel + max →
    (evictLoop fuel b max).1.length ≤ max
    ∧ IsHeap (evictLoop fuel b max).1
    ∧ (∀ x ∈ (evictLoop fuel b max).1, x ∈ b)
    ∧ (∀ x ∈ (evictLoop fuel b max).2, x ∈ b)
    ∧ (evictLoop fuel b max).2.Pairwise (fun a c => a.ts ≤ c.ts)
    ∧ (∀ x ∈ (evictLoop fuel b max).2, ∀ y ∈ (evictLoop fuel b max).1,
        x.ts ≤ y.ts) := by
  induction fuel with
  | zero =>
    intro b max hh hlen
    simp only [evictLoop]
    exact ⟨by omega, hh, fun x hx => hx, by simp, by simp, by simp⟩
  | succ fuel ih =>
    intro b max hh hlen
    unfold evictLoop
    by_cases hgt : b.length > max
    · rw [if_pos hgt]
      have hne : b ≠ [] := by
        intro h
        rw [h] at hgt
        simp at hgt
      have hps := heapPop_spec b hne hh
      rcases hpp : heapPop b with ⟨v, b2⟩
      rw [hpp] at hps
      simp only at hps
      obtain ⟨hv, hl2, hh2, hm2⟩ := hps
      subst hv
      have hih := ih b2 max hh2 (by omega)
      have hroot : ∀ y ∈ b, (b.getD 0 default).ts ≤ y.ts :=
        fun y hy => isHeap_root_min b hh y hy
      simp only [Option.toList_some, List.cons_append, List.nil_append]
      refine ⟨hih.1, hih.2.1, ?_, ?_, ?_, ?_⟩
      · intro x hx
        exact hm2 x (hih.2.2.1 x hx)
      · intro x hx
        rcases List.mem_cons.mp hx with hx2 | hx2
        · exact hx2 ▸ getD_mem b 0 (by omega)
        · exact hm2 x (hih.2.2.2.1 x hx2)
      · rw [List.pairwise_cons]
        refine ⟨?_, hih.2.2.2.2.1⟩
        intro a ha
        exact hroot a (hm2 a (hih.2.2.2.1 a ha))
      · intro x hx y hy
        rcases List.mem_cons.mp hx with hx2 | hx2
        · exact hx2 ▸ hroot y (hm2 y (hih.2.2.1 y hy))
        · exact hih.2.2.2.2.2 x hx2 y hy
    · rw [if_neg hgt]
      exact ⟨(by omega : b.length ≤ max), hh, fun x hx => hx, by simp, by simp,
        by simp⟩

end zaproll

namespace zaproll

theorem scanFold_spec (outputPath dir : String) (ns : List DirEntry) :
    ∀ acc : List Backup, IsHeap acc →
    IsHeap (ns.foldl (scanStep outputPath dir) acc)
    ∧ ∀ x ∈ ns.foldl (scanStep outputPath dir) acc, x ∈ acc ∨
        ∃ e ∈ ns, e.isDir = false
          ∧ parseTime e.name (getPrefixAndExt outputPath).1
              (getPrefixAndExt outputPath).2 ≠ 0
          ∧ x = ⟨parseTime e.name (getPrefixAndExt outputPath).1
                (getPrefixAndExt outputPath).2,
              String.mk (gopath.joinL dir.data e.name.data)⟩ := by
  induction ns with
  | nil =>
    intro acc hh
    exact ⟨hh, fun x hx => Or.inl hx⟩
  | cons e ns ih =>
    intro acc hh
    simp only [List.foldl_cons]
    by_cases hd : e.isDir
    · have hstep : scanStep outputPath dir acc e = acc := by
        unfold scanStep
        rw [if_pos hd]
      rw [hstep]
      have hrest := ih acc hh
      refine ⟨hrest.1, fun x hx => ?_⟩
      rcases hrest.2 x hx with h2 | ⟨e2, he2, h3⟩
      · exact Or.inl h2
      · exact Or.inr ⟨e2, List.mem_cons_of_mem _ he2, h3⟩
    · by_cases hts : parseTime e.name (getPrefixAndExt outputPath).1
          (getPrefixAndExt outputPath).2 ≠ 0
      · have hstep : scanStep outputPath dir acc e
            = heapPush acc ⟨parseTime e.name (getPrefixAndExt outputPath).1
                  (getPrefixAndExt outputPath).2,
                String.mk (gopath.joinL dir.data e.name.data)⟩ := by
          unfold scanStep
          rw [if_neg hd]
          show (if parseTime e.name (getPrefixAndExt outputPath).1
                  (getPrefixAndExt outputPath).2 ≠ 0
              then heapPush acc ⟨parseTime e.name (getPrefixAndExt outputPath).1
                    (getPrefixAndExt outputPath).2,
                  String.mk (gopath.joinL dir.data e.name.data)⟩
              else acc)
            = heapPush acc ⟨parseTime e.name (getPrefixAndExt outputPath).1
                  (getPrefixAndExt outputPath).2,
                String.mk (gopath.joinL dir.data e.name.data)⟩
          rw [if_pos hts]
        rw [hstep]
        have hh2 := heapPush_isHeap acc
          ⟨parseTime e.name (getPrefixAndExt outputPath).1
              (getPrefixAndExt outputPath).2,
            String.mk (gopath.joinL dir.data e.name.data)⟩ hh
        have hrest := ih _ hh2
        refine ⟨hrest.1, fun x hx => ?_⟩
        rcases hrest.2 x hx with h2 | ⟨e2, he2, h3⟩
        · rcases mem_heapPush acc _ x h2 with h3 | h3
          · exact Or.inl h3
          · exact Or.inr ⟨e, List.mem_cons_self e ns,
              by simpa using hd, hts, h3⟩
        · exact Or.inr ⟨e2, List.mem_cons_of_mem _ he2, h3⟩
      · have hstep : scanStep outputPath dir acc e = acc := by
          unfold scanStep
          rw [if_neg hd]
          show (if parseTime e.name (getPrefixAndExt outputPath).1
                  (getPrefixAndExt outputPath).2 ≠ 0
              then heapPush acc ⟨parseTime e.name (getPrefixAndExt outputPath).1
                    (getPrefixAndExt outputPath).2,
                  String.mk (gopath.joinL dir.data e.name.data)⟩
              else acc) = acc
          rw [if_neg hts]
        rw [hstep]
        have hrest := ih acc hh
        refine ⟨hrest.1, fun x hx => ?_⟩
        rcases hrest.2 x hx with h2 | ⟨e2, he2, h3⟩
        · exact Or.inl h2
        · exact Or.inr ⟨e2, List.mem_cons_of_mem _ he2, h3⟩

theorem pushAndEvict_spec (maxB : Nat) (bks : List Backup) (b : Backup)
    (hh : IsHeap bks) (hlen : bks.length ≤ maxB) :
    IsHeap (pushAndEvict maxB bks b).1
    ∧ (pushAndEvict maxB bks b).1.length ≤ maxB
    ∧ (∀ x ∈ (pushAndEvict maxB bks b).1, x ∈ bks ∨ x = b)
    ∧ ∀ ev ∈ (pushAndEvict maxB bks b).2,
        ev = RotEvent.osRemove ((heapPush bks b).getD 0 default).fp
        ∧ ∀ y ∈ heapPush bks b, ((heapPush bks b).getD 0 default).ts ≤ y.ts := by
  have hh1 := heapPush_isHeap bks b hh
  have hl1 := heapPush_length bks b
  unfold pushAndEvict
  by_cases hgt : (heapPush bks b).length > maxB
  · rw [if_pos hgt]
    have hne : heapPush bks b ≠ [] := by
      intro h
      rw [h] at hl1
      simp only [List.length_nil] at hl1
      omega
    have hps := heapPop_spec (heapPush bks b) hne hh1
    rcases hpp : heapPop (heapPush bks b) with ⟨v, b2⟩
    rw [hpp] at hps
    simp only at hps
    obtain ⟨hv, hl2, hh2, hm2⟩ := hps
    subst hv
    simp only [Option.toList_some, List.map_cons, List.map_nil]
    refine ⟨hh2, (by omega : b2.length ≤ maxB), ?_, ?_⟩
    · intro x hx
      exact mem_heapPush bks b x (hm2 x hx)
    · intro ev hev
      simp only [List.mem_singleton] at hev
      subst hev
      exact ⟨rfl, fun y hy => isHeap_root_min _ hh1 y hy⟩
  · rw [if_neg hgt]
    refine ⟨hh1, (by omega : (heapPush bks b).length ≤ maxB), ?_, ?_⟩
    · intro x hx
      exact mem_heapPush bks b x hx
    · intro ev hev
      simp at hev

end zaproll

namespace zaproll

theorem isHeap_nil : IsHeap [] := by
  intro j hj
  simp at hj

theorem list_spec (outputPath : String) (max : Nat) (env : ScanEnv)
    (cat : List Backup) (removed : List String)
    (h : Backups.list outputPath max env = .ok (cat, removed)) :
    cat.length ≤ max ∧ IsHeap cat
    ∧ (∀ x ∈ cat, ∃ e ∈ env.entries, e.isDir = false
        ∧ parseTime e.name (getPrefixAndExt outputPath).1
            (getPrefixAndExt outputPath).2 ≠ 0
        ∧ x = ⟨parseTime e.name (getPrefixAndExt outputPath).1
              (getPrefixAndExt outputPath).2,
            String.mk (gopath.joinL
              (String.mk (gopath.dirL outputPath.data)).data e.name.data)⟩)
    ∧ ∃ evs : List Backup,
        removed = evs.map (fun x => x.fp)
        ∧ (∀ x ∈ evs, ∃ e ∈ env.entries, e.isDir = false
            ∧ parseTime e.name (getPrefixAndExt outputPath).1
                (getPrefixAndExt outputPath).2 ≠ 0
            ∧ x = ⟨parseTime e.name (getPrefixAndExt outputPath).1
                  (getPrefixAndExt outputPath).2,
                String.mk (gopath.joinL
                  (String.mk (gopath.dirL outputPath.data)).data e.name.data)⟩)
        ∧ evs.Pairwise (fun a c => a.ts ≤ c.ts)
        ∧ ∀ x ∈ evs, ∀ y ∈ cat, x.ts ≤ y.ts := by
  unfold Backups.list at h
  by_cases hmk : env.mkdirOk
  · rw [if_neg (by simp [hmk])] at h
    by_cases hrd : env.readDirOk
    · rw [if_neg (by simp [hrd])] at h
      simp only [Except.ok.injEq, Prod.mk.injEq] at h
      obtain ⟨hcat, hrem⟩ := h
      have hscan := scanFold_spec outputPath
        (String.mk (gopath.dirL outputPath.data)) env.entries [] isHeap_nil
      have hev := evictLoop_spec
        (scanEntries outputPath (String.mk (gopath.dirL outputPath.data))
          env.entries).length
        (scanEntries outputPath (String.mk (gopath.dirL outputPath.data))
          env.entries) max hscan.1 (by omega)
      have hprov : ∀ x ∈ scanEntries outputPath
          (String.mk (gopath.dirL outputPath.data)) env.entries,
          ∃ e ∈ env.entries, e.isDir = false
          ∧ parseTime e.name (getPrefixAndExt outputPath).1
              (getPrefixAndExt outputPath).2 ≠ 0
          ∧ x = ⟨parseTime e.name (getPrefixAndExt outputPath).1
                (getPrefixAndExt outputPath).2,
              String.mk (gopath.joinL
                (String.mk (gopath.dirL outputPath.data)).data e.name.data)⟩ := by
        intro x hx
        rcases hscan.2 x hx with h2 | h2
        · simp at h2
        · exact h2
      refine ⟨?_, ?_, ?_, ?_⟩
      · rw [← hcat]
        exact hev.1
      · rw [← hcat]
        exact hev.2.1
      · intro x hx
        rw [← hcat] at hx
        exact hprov x (hev.2.2.1 x hx)
      · refine ⟨(evictLoop (scanEntries outputPath
            (String.mk (gopath.dirL outputPath.data)) env.entries).length
            (scanEntries outputPath (String.mk (gopath.dirL outputPath.data))
              env.entries) max).2, hrem.symm, ?_, hev.2.2.2.2.1, ?_⟩
        · intro x hx
          exact hprov x (hev.2.2.2.1 x hx)
        · intro x hx y hy
          rw [← hcat] at hy
          exact hev.2.2.2.2.2 x hx y hy
    · rw [if_pos (by simp [hrd])] at h
      exact absurd h (by simp)
  · rw [if_pos (by simp [hmk])] at h
    exact absurd h (by simp)

end zaproll

/-- C7: after the construction-time directory scan at most `max` backups
remain in the catalog (a min-heap by timestamp), every catalog entry and
every removed file comes from a non-directory entry whose name matches the
prefix/timestamp/extension pattern (non-matching files are untouched), the
removals happen oldest-first (their timestamps are mutually sorted and no
larger than anything remaining); and every rotation's catalog insertion
(`heap.Push` + conditional `heap.Pop`/remove in `open`) keeps at most
`maxB` backups, evicting only the heap minimum — the oldest backup. -/
theorem C7_backup_retention (outputPath : String) (max : Nat) (env : zaproll.ScanEnv)
    (cat : List zaproll.Backup) (removed : List String)
    (h : zaproll.Backups.list outputPath max env = .ok (cat, removed))
    (maxB : Nat) (bks : List zaproll.Backup) (b : zaproll.Backup)
    (hh : zaproll.IsHeap bks) (hlen : bks.length ≤ maxB) :
    (cat.length ≤ max ∧ zaproll.IsHeap cat
     ∧ (∀ x ∈ cat, ∃ e ∈ env.entries, e.isDir = false
        ∧ zaproll.parseTime e.name (zaproll.getPrefixAndExt outputPath).1
            (zaproll.getPrefixAndExt outputPath).2 ≠ 0
        ∧ x = ⟨zaproll.parseTime e.name (zaproll.getPrefixAndExt outputPath).1
              (zaproll.getPrefixAndExt outputPath).2,
            String.mk (gopath.joinL
              (String.mk (gopath.dirL outputPath.data)).data e.name.data)⟩)
     ∧ ∃ evs : List zaproll.Backup,
        removed = evs.map (fun x => x.fp)
        ∧ (∀ x ∈ evs, ∃ e ∈ env.entries, e.isDir = false
            ∧ zaproll.parseTime e.name (zaproll.getPrefixAndExt outputPath).1
                (zaproll.getPrefixAndExt outputPath).2 ≠ 0
            ∧ x = ⟨zaproll.parseTime e.name (zaproll.getPrefixAndExt outputPath).1
                  (zaproll.getPrefixAndExt outputPath).2,
                String.mk (gopath.joinL
                  (String.mk (gopath.dirL outputPath.data)).data e.name.data)⟩)
        ∧ evs.Pairwise (fun a c => a.ts ≤ c.ts)
        ∧ ∀ x ∈ evs, ∀ y ∈ cat, x.ts ≤ y.ts)
    ∧ (zaproll.IsHeap (zaproll.pushAndEvict maxB bks b).1
       ∧ (zaproll.pushAndEvict maxB bks b).1.length ≤ maxB
       ∧ (∀ x ∈ (zaproll.pushAndEvict maxB bks b).1, x ∈ bks ∨ x = b)
       ∧ ∀ ev ∈ (zaproll.pushAndEvict maxB bks b).2,
           ev = .osRemove ((zaproll.heapPush bks b).getD 0 default).fp
           ∧ ∀ y ∈ zaproll.heapPush bks b,
               ((zaproll.heapPush bks b).getD 0 default).ts ≤ y.ts) :=
  ⟨zaproll.list_spec outputPath max env cat removed h,
   zaproll.pushAndEvict_spec maxB bks b hh hlen⟩

/-- C7 witness: a concrete scan (junk file plus directory, nothing
matching) and a concrete one-element catalog insertion at the retention
bound. -/
theorem C7_backup_retention_witness :
    (zaproll.Backups.list (String.mk ['x','.','l','o','g']) 0
        ⟨true, true,
          [⟨String.mk ['j','u','n','k'], false⟩,
           ⟨String.mk ['s','u','b'], true⟩]⟩
      = .ok ([], []))
    ∧ zaproll.IsHeap [⟨100, String.mk ['b','1']⟩]
    ∧ ([(⟨100, String.mk ['b','1']⟩ : zaproll.Backup)]).length ≤ 1
    ∧ (([] : List zaproll.Backup).length ≤ 0
       ∧ (zaproll.pushAndEvict 1 [⟨100, String.mk ['b','1']⟩]
            ⟨50, String.mk ['b','2']⟩).1.length ≤ 1) := by
  have h1 : zaproll.Backups.list (String.mk ['x','.','l','o','g']) 0
      ⟨true, true,
        [⟨String.mk ['j','u','n','k'], false⟩,
         ⟨String.mk ['s','u','b'], true⟩]⟩
      = .ok ([], []) := by
    rfl
  have h2 : zaproll.IsHeap [⟨100, String.mk ['b','1']⟩] := by decide
  have h3 : ([(⟨100, String.mk ['b','1']⟩ : zaproll.Backup)]).length ≤ 1 := by
    decide
  have hmain := C7_backup_retention (String.mk ['x','.','l','o','g']) 0 _ [] _ h1
    1 [⟨100, String.mk ['b','1']⟩] ⟨50, String.mk ['b','2']⟩ h2 h3
  exact ⟨h1, h2, h3, hmain.1.1, hmain.2.2.1⟩
